import Mathlib

/-!
Verification development for the graphql-merge-unmerge library.

The TypeScript source (src/index.ts) is shallowly embedded below.  JavaScript
runtime values bound to query variables are modelled by `JValue`, where the
`ref` constructor stands for an object reference (JavaScript compares objects
by reference, so reference identity is modelled as identity of the numeric
id).  The distinction between JavaScript `undefined` and `null` is kept via
the `undefv` constructor, because the library compares bound values with the
strict equality operator.  Response trees are modelled by `Data`; a missing
object key reads as `Data.null`.  Maps keyed by object identity in the source
are modelled as association lists keyed by structural equality; the points
where this choice is observable are marked in comments.
-/

namespace GMU

/-- JavaScript runtime values bound to variables.  `ref` models an object
reference by its identity. -/
inductive JValue where
  | undefv
  | null
  | bool (b : Bool)
  | num (n : Int)
  | str (s : String)
  | ref (id : Nat)
  deriving DecidableEq, Repr

/-- A variable binding map, `name -> value`. -/
abbrev Vars := List (String × JValue)

/-- Reading `values[name]` in JavaScript: a missing key is `undefined`. -/
def lookupVar (vs : Vars) (n : String) : JValue :=
  match List.find? (fun p => p.1 == n) vs with
  | some p => p.2
  | none => .undefv

/-- graphql AST value literals (`ValueNode`).  Numeric literals carry their
source text as a string, exactly as in the graphql AST. -/
inductive ValueNode where
  | variable (name : String)
  | intV (value : String)
  | floatV (value : String)
  | strV (value : String)
  | boolV (value : Bool)
  | nullV
  | enumV (value : String)
  | listV (values : List ValueNode)
  | objV (fields : List (String × ValueNode))

/-- An argument of a field: `name: value`. -/
structure Argument where
  name : String
  value : ValueNode

/-- Selection nodes.  The graphql `FieldNode` is flattened into the `field`
constructor: alias, name, arguments, directives (only their names are
relevant to this library, which never reads anything but presence), and an
optional selection set. -/
inductive Selection where
  | field (aliasName : Option String) (name : String) (arguments : List Argument)
      (directives : List String) (selectionSet : Option (List Selection))
  | fragmentSpread (name : String) (directives : List String)
  | inlineFragment (typeCondition : Option String) (directives : List String)
      (selectionSet : List Selection)

/-- A variable definition `$name: Type = default @dirs`. -/
structure VariableDefinition where
  varName : String
  varType : String
  defaultValue : Option ValueNode
  directives : List String

/-- An operation definition. `operation` is the string tag used by the
source, `"query"`, `"mutation"` or `"subscription"`. -/
structure OperationDefinition where
  operation : String
  opName : Option String
  variableDefinitions : List VariableDefinition
  directives : List String
  selectionSet : List Selection

/-- A named fragment definition. -/
structure FragmentDefinition where
  name : String
  typeCondition : String
  directives : List String
  selectionSet : List Selection

/-- A document-level definition. -/
inductive Definition where
  | operation (op : OperationDefinition)
  | fragment (f : FragmentDefinition)

/-- A parsed document. -/
abbrev Document := List Definition

/-- A query as submitted to the library: a parsed document plus bound
variable values.  The source calls the second field `variables`; that word
is a reserved command token in Lean, so it is named `varValues` here. -/
structure Query where
  query : Document
  varValues : Vars

/-- Response trees (`data`).  JavaScript `undefined` and `null` are merged
into `null` here: the library never distinguishes them inside response
data (both are falsy and both read keys as absent). -/
inductive Data where
  | null
  | bool (b : Bool)
  | num (n : Int)
  | str (s : String)
  | arr (items : List Data)
  | obj (fields : List (String × Data))

/-- One step of an error path: a field key or a list index. -/
inductive Step where
  | key (s : String)
  | index (n : Nat)
  deriving DecidableEq, Repr

/-- A formatted graphql error; only the path is interpreted by the library,
the message stands for the rest of the payload. -/
structure ErrItem where
  message : String
  path : Option (List Step)
  deriving DecidableEq, Repr

/-- A graphql response.  `data = Data.null` models an absent `data`;
`errors = none` models an absent `errors` list. -/
structure Response where
  data : Data
  errors : Option (List ErrItem)

/-! ### The alphabetic name generator

`generate-alphabetic-name` is an external package (not part of this
repository's sources).  Modelled from the spec: newly minted names are drawn
from the deterministic alphabetic sequence a, b, c, ..., z, aa, ab, ...
(bijective base 26); the observable behaviour in the repository's own test
snapshots (`uniqueID` starts at 1 and the first minted name is "b") pins the
indexing used here. -/

/-- Digits of `m` in bijective base 26 over a..z. -/
def toAlpha : Nat → List Char
  | 0 => []
  | m + 1 => toAlpha (m / 26) ++ [Char.ofNat (97 + m % 26)]

/-- The name for index `n` of the alphabetic sequence: `0 ↦ "a"`,
`1 ↦ "b"`, ..., `26 ↦ "aa"`. -/
def generateAlphabeticNameFromNumber (n : Nat) : String :=
  ⟨toAlpha (n + 1)⟩

/-- Valuation inverse to `toAlpha`, used to prove the generator injective. -/
def fromAlpha (l : List Char) : Nat :=
  l.foldl (fun acc c => acc * 26 + (c.toNat - 96)) 0

/-! ### The unique-name allocator (`uniqueNameSet`)

The closure over `usedNames` and `uniqueID` is modelled as explicit state.
The `while` loop is modelled with fuel `usedNames.length + 1`; the generator
is injective, so among that many consecutive candidates one is always
outside `usedNames` and the fuel never runs out (proved below). -/

structure NameAlloc where
  used : List String
  counter : Nat

/-- The body of the `while (usedNames.has(result))` loop: try consecutive
generated names.  On fuel exhaustion (unreachable, see
`allocLoop_not_mem`) the candidate is taken unconditionally. -/
def allocLoop : Nat → List String → Nat → String × Nat
  | 0, _, counter => (generateAlphabeticNameFromNumber counter, counter + 1)
  | fuel + 1, used, counter =>
    if generateAlphabeticNameFromNumber counter ∈ used then
      allocLoop fuel used (counter + 1)
    else (generateAlphabeticNameFromNumber counter, counter + 1)

/-- One call of the function returned by `uniqueNameSet`: take the
suggestion if it is free, otherwise mint generated names until one is free;
record the result as used. -/
def NameAlloc.next (a : NameAlloc) (suggestion : String) : String × NameAlloc :=
  if suggestion ∈ a.used then
    let rc := allocLoop (a.used.length + 1) a.used a.counter
    (rc.1, ⟨rc.1 :: a.used, rc.2⟩)
  else
    (suggestion, ⟨suggestion :: a.used, a.counter⟩)

/-- The allocator state seeded by `uniqueNameSet(init)`. -/
def uniqueNameSet (init : List String) : NameAlloc := ⟨init, 1⟩

/-! ### Equality predicates from the source -/

/-- `valueNodesAreEqual`: only scalar literal kinds compare equal (by kind
and value); both `undefined` counts as equal; list, object, enum and
variable values never compare equal, not even to themselves. -/
def valueNodesAreEqual : Option ValueNode → Option ValueNode → Bool
  | none, none => true
  | none, some _ => false
  | some _, none => false
  | some a, some b =>
    match a, b with
    | .nullV, .nullV => true
    | .boolV x, .boolV y => x == y
    | .floatV x, .floatV y => x == y
    | .intV x, .intV y => x == y
    | .strV x, .strV y => x == y
    | _, _ => false

/-- `findExistingVariable`: the first combined variable definition whose
default value compares equal, which carries no directives (on either side),
and whose bound runtime value is strictly equal to the new one. -/
def findExistingVariable (defs : List VariableDefinition) (values : Vars)
    (vd : VariableDefinition) (value : JValue) : Option String :=
  (defs.find? (fun d =>
    valueNodesAreEqual d.defaultValue vd.defaultValue &&
    d.directives.isEmpty && vd.directives.isEmpty &&
    lookupVar values d.varName == value)).map (·.varName)

/-- `argumentEqual`: same argument name, and either both values are the same
variable or the literal values compare equal. -/
def argumentEqual (a b : Argument) : Bool :=
  a.name == b.name &&
    ((match a.value, b.value with
      | .variable x, .variable y => x == y
      | _, _ => false) ||
     valueNodesAreEqual (some a.value) (some b.value))

/-- `argumentsAreEqual`: both empty, or same length and every argument of
the first list matched by some argument of the second.  The source treats an
absent argument list and an empty one alike, so both are modelled as `[]`. -/
def argumentsAreEqual (a b : List Argument) : Bool :=
  if a.isEmpty && b.isEmpty then true
  else if a.length != b.length then false
  else a.all fun aa => b.any fun bb => argumentEqual aa bb

/-- Is this selection a plain field? -/
def Selection.isField : Selection → Bool
  | .field _ _ _ _ _ => true
  | _ => false

/-- Does this optional selection set contain a non-field selection? -/
def hasNonField : Option (List Selection) → Bool
  | none => false
  | some ss => ss.any fun s => !s.isField

/-- `fieldsCanBeMerged`: same field name, no directives on either side,
argument lists equal, and neither side's own selection set contains a
non-field selection.  Only ever called on field nodes; other shapes are
unreachable and answer `false`. -/
def fieldsCanBeMerged (a b : Selection) : Bool :=
  match a, b with
  | .field _ an aargs adirs ass, .field _ bn bargs bdirs bss =>
    an == bn && adirs.isEmpty && bdirs.isEmpty &&
    argumentsAreEqual aargs bargs && !hasNonField ass && !hasNonField bss
  | _, _ => false

/-! ### Variable and fragment renaming -/

/-- Rename a variable reference in one argument. -/
def renameArg (mapping : List (String × String)) (a : Argument) : Argument :=
  { a with
    value :=
      match a.value with
      | .variable vn =>
        .variable (((mapping.find? (fun p => p.1 == vn)).map (·.2)).getD vn)
      | v => v }

mutual
/-- `renameVariables` on one selection: rewrite variable-valued arguments of
fields and recurse into field and inline-fragment selection sets; fragment
spreads are returned untouched. -/
def renameVarsSel (mapping : List (String × String)) : Selection → Selection
  | .field al n args dirs ss =>
    .field al n (args.map (renameArg mapping)) dirs
      (match ss with
       | none => none
       | some l => some (renameVarsSels mapping l))
  | .fragmentSpread n d => .fragmentSpread n d
  | .inlineFragment tc d ss => .inlineFragment tc d (renameVarsSels mapping ss)
def renameVarsSels (mapping : List (String × String)) :
    List Selection → List Selection
  | [] => []
  | s :: rest => renameVarsSel mapping s :: renameVarsSels mapping rest
end

/-- `renameVariables`: the identity when the mapping is empty. -/
def renameVariables (set : List Selection) (mapping : List (String × String)) :
    List Selection :=
  if mapping.isEmpty then set else renameVarsSels mapping set

mutual
/-- `renameFragments` on one selection: rewrite spread names that the
mapping covers and recurse into nested selection sets. -/
def renameFragsSel (mapping : List (String × String)) : Selection → Selection
  | .field al n args dirs ss =>
    .field al n args dirs
      (match ss with
       | none => none
       | some l => some (renameFragsSels mapping l))
  | .fragmentSpread n d =>
    match mapping.find? (fun p => p.1 == n) with
    | none => .fragmentSpread n d
    | some p => .fragmentSpread p.2 d
  | .inlineFragment tc d ss => .inlineFragment tc d (renameFragsSels mapping ss)
def renameFragsSels (mapping : List (String × String)) :
    List Selection → List Selection
  | [] => []
  | s :: rest => renameFragsSel mapping s :: renameFragsSels mapping rest
end

/-- `renameFragments`: the identity when the mapping is empty. -/
def renameFragments (set : List Selection) (mapping : List (String × String)) :
    List Selection :=
  if mapping.isEmpty then set else renameFragsSels mapping set

/-! ### Structural equality test used as the stand-in for object identity

The source keys a `Map` by `FragmentDefinitionNode` object identity; the
shallow embedding has no reference identity, so structurally equal fragment
definitions are identified.  (When two distinct but structurally equal
objects occur the source mints an extra fragment copy; either behaviour
keeps every claim below intact.) -/

mutual
def valBeq : ValueNode → ValueNode → Bool
  | .variable a, .variable b => a == b
  | .intV a, .intV b => a == b
  | .floatV a, .floatV b => a == b
  | .strV a, .strV b => a == b
  | .boolV a, .boolV b => a == b
  | .nullV, .nullV => true
  | .enumV a, .enumV b => a == b
  | .listV a, .listV b => valListBeq a b
  | .objV a, .objV b => valObjBeq a b
  | _, _ => false
def valListBeq : List ValueNode → List ValueNode → Bool
  | [], [] => true
  | a :: as', b :: bs' => valBeq a b && valListBeq as' bs'
  | _, _ => false
def valObjBeq : List (String × ValueNode) → List (String × ValueNode) → Bool
  | [], [] => true
  | (k, a) :: as', (k', b) :: bs' => k == k' && valBeq a b && valObjBeq as' bs'
  | _, _ => false
end

def argBeq (a b : Argument) : Bool :=
  a.name == b.name && valBeq a.value b.value

def argsBeq : List Argument → List Argument → Bool
  | [], [] => true
  | a :: as', b :: bs' => argBeq a b && argsBeq as' bs'
  | _, _ => false

mutual
def selBeq : Selection → Selection → Bool
  | .field al n args dirs ss, .field al' n' args' dirs' ss' =>
    al == al' && n == n' && argsBeq args args' && dirs == dirs' &&
      (match ss, ss' with
       | none, none => true
       | some l, some l' => selsBeq l l'
       | _, _ => false)
  | .fragmentSpread n d, .fragmentSpread n' d' => n == n' && d == d'
  | .inlineFragment tc d ss, .inlineFragment tc' d' ss' =>
    tc == tc' && d == d' && selsBeq ss ss'
  | _, _ => false
def selsBeq : List Selection → List Selection → Bool
  | [], [] => true
  | a :: as', b :: bs' => selBeq a b && selsBeq as' bs'
  | _, _ => false
end

def fragBeq (a b : FragmentDefinition) : Bool :=
  a.name == b.name && a.typeCondition == b.typeCondition &&
    a.directives == b.directives && selsBeq a.selectionSet b.selectionSet

/-! ### Result projection -/

/-- JavaScript truthiness test on response data (`!value`). -/
def isFalsy : Data → Bool
  | .null => true
  | .bool b => !b
  | .num n => n == 0
  | .str s => s == ""
  | .arr _ => false
  | .obj _ => false

/-- Reading `value[k]`: an object key lookup; on anything else, and on a
missing key, JavaScript yields `undefined`, modelled as `Data.null`. -/
def getKey (d : Data) (k : String) : Data :=
  match d with
  | .obj fields =>
    match fields.find? (fun p => p.1 == k) with
    | some p => p.2
    | none => .null
  | _ => .null

mutual
/-- `selectSelectionSet`: project a combined response value onto one
query's selection set; arrays are mapped over transparently; a falsy value
is returned as-is; a non-field selection anywhere in the set returns the
whole value verbatim. -/
def selectSelectionSet (value : Data) (set : Option (List Selection)) : Data :=
  match set with
  | none => value
  | some sels =>
    match value with
    | .arr items => .arr (selectSelArr items sels)
    | v =>
      if isFalsy v then v
      else
        match selectSelFields sels v with
        | some fields => .obj fields
        | none => v
  termination_by (sizeOf set, sizeOf value, 1)
def selectSelArr (items : List Data) (sels : List Selection) : List Data :=
  match items with
  | [] => []
  | d :: rest => selectSelectionSet d (some sels) :: selectSelArr rest sels
  termination_by (sizeOf (some sels : Option (List Selection)), sizeOf items, 2)
/-- The loop over the selections; `none` signals an early `return value`
caused by a non-field selection. -/
def selectSelFields (sels : List Selection) (v : Data) :
    Option (List (String × Data)) :=
  match sels with
  | [] => some []
  | .field al n _ _ ss :: rest =>
    match selectSelFields rest v with
    | none => none
    | some fs =>
      some ((al.getD n, selectSelectionSet (getKey v (al.getD n)) ss) :: fs)
  | _ => none
  termination_by (sizeOf sels, sizeOf v, 0)
end

/-- The index and value of the first string step of an error path
(`path.findIndex((p) => typeof p === 'string')`). -/
def findFirstKey : List Step → Option (Nat × String)
  | [] => none
  | .key s :: _ => some (0, s)
  | .index _ :: rest => (findFirstKey rest).map (fun p => (p.1 + 1, p.2))

mutual
/-- `errorPathForSelectionSet`: decide whether a combined-document error
path scoped under this selection set belongs to it; the path is returned
unchanged when it does, `none` drops it. -/
def errorPathForSelectionSet (path : List Step) (set : Option (List Selection)) :
    Option (List Step) :=
  match set with
  | none => some path
  | some sels =>
    match findFirstKey path with
    | none => some path
    | some kk => epssLoop sels path kk.1 kk.2
  termination_by (sizeOf set, 1)
def epssLoop (sels : List Selection) (path : List Step) (k : Nat) (key : String) :
    Option (List Step) :=
  match sels with
  | [] => none
  | .field al n _ _ ss :: rest =>
    if key == al.getD n then
      if (errorPathForSelectionSet (path.drop (k + 1)) ss).isSome then some path
      else none
    else epssLoop rest path k key
  | _ => some path
  termination_by (sizeOf sels, 0)
end

/-! ### Field mappings

`mergeFields` returns two closures over its `fieldMappings` list; the list
is represented first-order.  A mapping's child projector is either absent
(`noChild`, the source's `undefined`), the pair of closures over a captured
selection set built in the fresh-append branch (`bySet`), or the recursive
result of merging children (`byMappings`). -/

mutual
inductive ChildOpt where
  | noChild
  | bySet (set : Option (List Selection))
  | byMappings (ms : List FieldMapping)
inductive FieldMapping where
  | mk (aliasName : String) (output : String) (children : ChildOpt)
end

def FieldMapping.aliasName : FieldMapping → String
  | .mk a _ _ => a

def FieldMapping.output : FieldMapping → String
  | .mk _ o _ => o

def FieldMapping.children : FieldMapping → ChildOpt
  | .mk _ _ c => c

mutual
/-- `selectByFieldMappings`: project a combined value through a mapping
list; arrays map transparently, falsy values are returned as-is. -/
def selectByFieldMappings (value : Data) (set : List FieldMapping) : Data :=
  match value with
  | .arr items => .arr (selectByFieldMappingsArr items set)
  | v => if isFalsy v then v else .obj (mappingEntries v set)
  termination_by (sizeOf set, sizeOf value, 1)
def selectByFieldMappingsArr (items : List Data) (set : List FieldMapping) :
    List Data :=
  match items with
  | [] => []
  | d :: rest => selectByFieldMappings d set :: selectByFieldMappingsArr rest set
  termination_by (sizeOf set, sizeOf items, 2)
/-- One entry per mapping: `result[output] = children ?
children.extractData(value[alias]) : value[alias]`. -/
def mappingEntries (v : Data) (set : List FieldMapping) :
    List (String × Data) :=
  match set with
  | [] => []
  | .mk al out children :: rest =>
    (out,
      match children with
      | .noChild => getKey v al
      | .bySet ss => selectSelectionSet (getKey v al) ss
      | .byMappings ms => selectByFieldMappings (getKey v al) ms) ::
      mappingEntries v rest
  termination_by (sizeOf set, sizeOf v, 0)
end

mutual
/-- The `errorPath` closure returned by `mergeFields`: find the first string
step, scan the mappings for a matching alias and remap or drop the path. -/
def mergeFieldsErrorPath (ms : List FieldMapping) (path : List Step) :
    Option (List Step) :=
  match findFirstKey path with
  | none => some path
  | some kk => errorPathScan ms path kk.1 kk.2
  termination_by (sizeOf ms, 1)
/-- The `for (const f of fieldMappings)` loop.  The source compares
`childrenInput === childrenResult` by array reference; the only way the
child call returns its input is the `return path` branches, which also make
the structural comparison used here true, so the two agree on values. -/
def errorPathScan (ms : List FieldMapping) (path : List Step) (k : Nat)
    (key : String) : Option (List Step) :=
  match ms with
  | [] => none
  | .mk al out children :: rest =>
    if al == key then
      match children with
      | .noChild =>
        if out == al then some path else some (path.take k ++ [.key out])
      | .bySet ss =>
        let childrenInput := path.drop (k + 1)
        match errorPathForSelectionSet childrenInput ss with
        | none => none
        | some cr =>
          if out == al && cr == childrenInput then some path
          else some (path.take k ++ [.key out] ++ cr)
      | .byMappings ms' =>
        let childrenInput := path.drop (k + 1)
        match mergeFieldsErrorPath ms' childrenInput with
        | none => none
        | some cr =>
          if out == al && cr == childrenInput then some path
          else some (path.take k ++ [.key out] ++ cr)
    else errorPathScan rest path k key
  termination_by (sizeOf ms, 0)
end

/-! ### Field folding (`mergeFields`) -/

/-- The output key of a field: alias if present, else name
(`e.alias?.value || e.name.value`). -/
def outKey : Selection → String
  | .field al n _ _ _ => al.getD n
  | .fragmentSpread n _ => n
  | .inlineFragment _ _ _ => ""

/-- The selection set of a field node; non-field selections are never
consulted here. -/
def selectionSetOf : Selection → Option (List Selection)
  | .field _ _ _ _ ss => ss
  | _ => none

/-- Replace the selection set of a field node. -/
def withSelectionSet : Selection → Option (List Selection) → Selection
  | .field al n args dirs _, ss => .field al n args dirs ss
  | s, _ => s

mutual
/-- The loop of `mergeFields` over the new fields, threading the mutated
`existingFields` array and the alias allocator. -/
def mergeFieldsGo (existing : List Selection) (alloc : NameAlloc) :
    List Selection → List Selection × List FieldMapping
  | [] => (existing, [])
  | s :: rest =>
    let step := mergeFieldStep existing alloc s
    let result := mergeFieldsGo step.1 step.2.1 rest
    (result.1, step.2.2 :: result.2)
  termination_by l => sizeOf l
/-- One iteration of the `mergeFields` loop: either append the new field
under a fresh alias, or fold it into the first structurally compatible
existing field.  Only field nodes reach this function. -/
def mergeFieldStep (existing : List Selection) (alloc : NameAlloc) :
    Selection → List Selection × NameAlloc × FieldMapping
  | .field al n args dirs ss =>
    let outputName := (al : Option String).getD n
    match List.findIdx? (fun ef => fieldsCanBeMerged ef (.field al n args dirs ss))
        existing with
    | none =>
      let an := alloc.next outputName
      let newAlias : Option String := if an.1 == n then none else some an.1
      let children : ChildOpt := if hasNonField ss then .noChild else .bySet ss
      (existing ++ [.field newAlias n args dirs ss], an.2,
        .mk an.1 outputName children)
    | some i =>
      let ef := existing.getD i (.field none "" [] [] none)
      let aliasName := outKey ef
      match selectionSetOf ef, ss with
      | some eSels, some nSels =>
        let inner := mergeFieldsGo eSels (uniqueNameSet (eSels.map outKey)) nSels
        (existing.set i (withSelectionSet ef (some inner.1)), alloc,
          .mk aliasName outputName (.byMappings inner.2))
      | _, _ => (existing, alloc, .mk aliasName outputName .noChild)
  | s => (existing ++ [s], alloc, .mk (outKey s) (outKey s) .noChild)
  termination_by s => sizeOf s
end

/-- `mergeFields`: fold new top-level fields into the existing combined
list, seeding the alias allocator with the keys already in use. -/
def mergeFields (existingFields newFields : List Selection) :
    List Selection × List FieldMapping :=
  mergeFieldsGo existingFields (uniqueNameSet (existingFields.map outKey))
    newFields

/-! ### Merging operation definitions (`mergeDefinitions`) -/

/-- One entry of the `definitions` array built by `merge`: an operation
definition paired with its bound variable values. -/
structure DefInput where
  query : OperationDefinition
  varValues : Vars

/-- The state threaded through one query's variable definitions. -/
structure VarState where
  alloc : NameAlloc
  variableDefinitions : List VariableDefinition
  varValues : Vars
  mapping : List (String × String)

/-- Process one declared variable: reuse an existing combined variable when
`findExistingVariable` finds one, otherwise mint a unique name, record the
binding and push the renamed definition. -/
def processVariable (st : VarState) (localVars : Vars)
    (vd : VariableDefinition) : VarState :=
  let originalName := vd.varName
  let value := lookupVar localVars originalName
  match findExistingVariable st.variableDefinitions st.varValues vd value with
  | some existing =>
    { st with
      mapping :=
        if originalName != existing then st.mapping ++ [(originalName, existing)]
        else st.mapping }
  | none =>
    let tn := st.alloc.next originalName
    { alloc := tn.2,
      variableDefinitions :=
        st.variableDefinitions ++ [{ vd with varName := tn.1 }],
      varValues := st.varValues ++ [(tn.1, value)],
      mapping :=
        if originalName != tn.1 then st.mapping ++ [(originalName, tn.1)]
        else st.mapping }

def processVariables (st : VarState) (localVars : Vars) :
    List VariableDefinition → VarState
  | [] => st
  | vd :: rest => processVariables (processVariable st localVars vd) localVars rest

/-- The state threaded by `mergeDefinitions` over the definitions. -/
structure MergeDefsState where
  alloc : NameAlloc
  variableDefinitions : List VariableDefinition
  varValues : Vars
  selections : List Selection
  extractResults : List (List FieldMapping)

/-- The loop of `mergeDefinitions`.  A non-field selection at the top level
of a folded operation raises the fatal structural error. -/
def mergeDefsGo (st : MergeDefsState) :
    List DefInput → Except String MergeDefsState
  | [] => .ok st
  | d :: rest =>
    let vs := processVariables
      ⟨st.alloc, st.variableDefinitions, st.varValues, []⟩
      d.varValues d.query.variableDefinitions
    let renamed := renameVariables d.query.selectionSet vs.mapping
    if renamed.all Selection.isField then
      let mf := mergeFields st.selections renamed
      mergeDefsGo
        ⟨vs.alloc, vs.variableDefinitions, vs.varValues, mf.1,
          st.extractResults ++ [mf.2]⟩ rest
    else .error "We can only merge simple fields at the top level"

/-- The result of `mergeDefinitions`: the combined operation, the combined
variable values, and per input definition the field mappings that its
`extractData`/`errorPath` closures range over. -/
structure MergeDefsOut where
  query : OperationDefinition
  varValues : Vars
  extractResults : List (List FieldMapping)

def mergeDefinitions (defs : List DefInput) : Except String MergeDefsOut :=
  (mergeDefsGo ⟨uniqueNameSet [], [], [], [], []⟩ defs).map fun st =>
    { query :=
        { operation := "query", opName := none,
          variableDefinitions := st.variableDefinitions,
          directives := [], selectionSet := st.selections },
      varValues := st.varValues,
      extractResults := st.extractResults }

/-- The `unmergeData` closure of `mergeDefinitions`. -/
def unmergeData (ers : List (List FieldMapping)) (d : Data) : List Data :=
  ers.map fun ms => selectByFieldMappings d ms

/-- The `unmergeErrors` closure of `mergeDefinitions`: per query, remap each
pathful error through `errorPath`, dropping it when the path does not belong
to the query; pathless errors are copied to every query. -/
def unmergeErrors (ers : List (List FieldMapping)) (errors : List ErrItem) :
    List (List ErrItem) :=
  ers.map fun ms =>
    errors.filterMap fun e =>
      match e.path with
      | some p => (mergeFieldsErrorPath ms p).map fun p' => { e with path := some p' }
      | none => some e

/-! ### The entry point (`merge`) -/

/-- The operation definitions of kind query
(`d.kind === 'OperationDefinition' && d.operation === 'query'`). -/
def queryOps (doc : Document) : List OperationDefinition :=
  doc.filterMap fun d =>
    match d with
    | .operation op => if op.operation == "query" then some op else none
    | .fragment _ => none

/-- The fragment definitions of a document. -/
def fragmentDefs (doc : Document) : List FragmentDefinition :=
  doc.filterMap fun d =>
    match d with
    | .operation _ => none
    | .fragment f => some f

/-- One definition is acceptable for merging: a query operation all of whose
top-level selections are fields, or a fragment definition; in both cases
with no directives attached to the definition itself. -/
def eligibleDef : Definition → Bool
  | .operation op =>
    op.operation == "query" && op.selectionSet.all Selection.isField &&
      op.directives.isEmpty
  | .fragment f => f.directives.isEmpty

/-- The eligibility filter of `merge`: every definition acceptable and
exactly one query operation. -/
def mergeable (doc : Document) : Bool :=
  doc.all eligibleDef && (queryOps doc).length == 1

/-- The state of the per-query loop of `merge`. -/
structure Phase2State where
  mergedQueries : List Query
  unmergedQueries : List Query
  definitions : List (Query × DefInput)
  fragments : List FragmentDefinition
  fragAlloc : NameAlloc
  fragNames : List (FragmentDefinition × String)

/-- Handle one fragment definition of a mergeable query: structurally equal
fragment definitions stand in for object-identical ones (see the header
comment); a new fragment is given a unique name and emitted once, and a
rename is recorded when its name changed. -/
def addFragment (st : Phase2State) (mapping : List (String × String))
    (f : FragmentDefinition) : Phase2State × List (String × String) :=
  match st.fragNames.find? (fun p => fragBeq p.1 f) with
  | some p =>
    (st, if f.name != p.2 then mapping ++ [(f.name, p.2)] else mapping)
  | none =>
    let nn := st.fragAlloc.next f.name
    let newFrag := if f.name == nn.1 then f else { f with name := nn.1 }
    ({ st with
        fragAlloc := nn.2,
        fragNames := st.fragNames ++ [(f, nn.1)],
        fragments := st.fragments ++ [newFrag] },
      if f.name != nn.1 then mapping ++ [(f.name, nn.1)] else mapping)

def addFragments (st : Phase2State) (mapping : List (String × String)) :
    List FragmentDefinition → Phase2State × List (String × String)
  | [] => (st, mapping)
  | f :: rest =>
    let r := addFragment st mapping f
    addFragments r.1 r.2 rest

/-- One iteration of the `for (const q of queries)` loop of `merge`. -/
def phase2Step (st : Phase2State) (q : Query) : Phase2State :=
  if mergeable q.query then
    let fm := addFragments st [] (fragmentDefs q.query)
    let op := (queryOps q.query).headD ⟨"query", none, [], [], []⟩
    let defQuery :=
      { op with selectionSet := renameFragments op.selectionSet fm.2 }
    { fm.1 with
      definitions := fm.1.definitions ++ [(q, ⟨defQuery, q.varValues⟩)],
      mergedQueries := fm.1.mergedQueries ++ [q] }
  else { st with unmergedQueries := st.unmergedQueries ++ [q] }

def phase2 (st : Phase2State) : List Query → Phase2State
  | [] => st
  | q :: rest => phase2 (phase2Step st q) rest

/-- The record returned by `merge`. -/
structure MergeResult where
  mergedQuery : Option Query
  mergedQueries : List Query
  unmergedQueries : List Query
  allQueries : List Query
  unmergeMergedQueries : Option (Response → List Response)
  unmergeAllQueries : List Response → List Response

/-! ### Structural equality on queries, standing in for object identity in
the `resultsMap` of the unmerge closures. -/

def optValBeq : Option ValueNode → Option ValueNode → Bool
  | none, none => true
  | some a, some b => valBeq a b
  | _, _ => false

def varDefBeq (a b : VariableDefinition) : Bool :=
  a.varName == b.varName && a.varType == b.varType &&
    optValBeq a.defaultValue b.defaultValue && a.directives == b.directives

def varDefsBeq : List VariableDefinition → List VariableDefinition → Bool
  | [], [] => true
  | a :: as', b :: bs' => varDefBeq a b && varDefsBeq as' bs'
  | _, _ => false

def opBeq (a b : OperationDefinition) : Bool :=
  a.operation == b.operation && a.opName == b.opName &&
    varDefsBeq a.variableDefinitions b.variableDefinitions &&
    a.directives == b.directives && selsBeq a.selectionSet b.selectionSet

def defBeq : Definition → Definition → Bool
  | .operation a, .operation b => opBeq a b
  | .fragment a, .fragment b => fragBeq a b
  | _, _ => false

def docBeq : Document → Document → Bool
  | [], [] => true
  | a :: as', b :: bs' => defBeq a b && docBeq as' bs'
  | _, _ => false

def queryBeq (a b : Query) : Bool :=
  docBeq a.query b.query && a.varValues == b.varValues

/-- `Map.set`: overwrite the entry for an equal key, else append. -/
def assocSetQ (m : List (Query × Response)) (q : Query) (r : Response) :
    List (Query × Response) :=
  match m with
  | [] => [(q, r)]
  | (k, v) :: rest =>
    if queryBeq k q then (k, r) :: rest else (k, v) :: assocSetQ rest q r

/-- `Map.get`. -/
def assocGetQ (m : List (Query × Response)) (q : Query) : Option Response :=
  (m.find? fun p => queryBeq p.1 q).map (·.2)

/-- The response stored per merged query: its unmerged data, and its
unmerged error list when non-empty. -/
def buildMergedMap (m : List (Query × Response)) :
    List (Query × DefInput) → List Data → List (List ErrItem) →
      List (Query × Response)
  | (q, _) :: drest, d :: dr, e :: er =>
    buildMergedMap (assocSetQ m q ⟨d, if e.isEmpty then none else some e⟩)
      drest dr er
  | _, _, _ => m

def setOthers (m : List (Query × Response)) :
    List (Query × Response) → List (Query × Response)
  | [] => m
  | (q, r) :: rest => setOthers (assocSetQ m q r) rest

/-- The response a JavaScript `Map.get` miss would yield (`undefined`);
unreachable for the inputs the closures are applied to. -/
def junkResponse : Response := ⟨.null, none⟩

/-- The `merge` entry point. -/
def merge (queries : List Query) : Except String MergeResult :=
  if queries.length == 1 then
    .ok
      { mergedQuery := none, mergedQueries := [], unmergeMergedQueries := none,
        unmergedQueries := queries, allQueries := queries,
        unmergeAllQueries := fun v => v }
  else
    let st := phase2 ⟨[], [], [], [], uniqueNameSet [], []⟩ queries
    if st.definitions.isEmpty then
      .ok
        { mergedQuery := none, mergedQueries := st.mergedQueries,
          unmergedQueries := st.unmergedQueries,
          allQueries := st.unmergedQueries, unmergeMergedQueries := none,
          unmergeAllQueries := fun v => v }
    else
      (mergeDefinitions (st.definitions.map (·.2))).map fun m =>
        let mergedQuery : Query :=
          ⟨.operation m.query :: st.fragments.map .fragment, m.varValues⟩
        { mergedQuery := some mergedQuery,
          mergedQueries := st.mergedQueries,
          unmergedQueries := st.unmergedQueries,
          allQueries := mergedQuery :: st.unmergedQueries,
          unmergeMergedQueries := some fun res =>
            let uD := unmergeData m.extractResults res.data
            let uE := unmergeErrors m.extractResults (res.errors.getD [])
            let rmap := buildMergedMap [] st.definitions uD uE
            st.mergedQueries.map fun q => (assocGetQ rmap q).getD junkResponse,
          unmergeAllQueries := fun results =>
            let mres := results.headD junkResponse
            let others := results.tail
            let uD := unmergeData m.extractResults mres.data
            let uE := unmergeErrors m.extractResults (mres.errors.getD [])
            let rmap := buildMergedMap [] st.definitions uD uE
            let rmap2 := setOthers rmap (st.unmergedQueries.zip others)
            queries.map fun q => (assocGetQ rmap2 q).getD junkResponse }

/-! ### A batching-independent server model

Modelled from the spec: the round-trip property quantifies over "a server
that answers each field identically regardless of batching".  A server is a
tree whose object nodes resolve a request purely by field name and resolved
argument values — never by alias, sibling fields, or the enclosing document
— so its answers cannot depend on how queries were batched.  Arguments
resolve a variable to the bound runtime value and keep literals as written;
fragment spreads expand through the document's fragment definitions (with
fuel, which suffices for the concrete documents evaluated here). -/

inductive ResolvedArg where
  | fromVar (v : JValue)
  | lit (v : ValueNode)

def rargBeq : ResolvedArg → ResolvedArg → Bool
  | .fromVar a, .fromVar b => a == b
  | .lit a, .lit b => valBeq a b
  | _, _ => false

def rargsBeq : List (String × ResolvedArg) → List (String × ResolvedArg) → Bool
  | [], [] => true
  | (n, a) :: as', (n', b) :: bs' => n == n' && rargBeq a b && rargsBeq as' bs'
  | _, _ => false

inductive ServerVal where
  | leaf (d : Data)
  | obj (fields : List ((String × List (String × ResolvedArg)) × ServerVal))
  | list (items : List ServerVal)
  | missing

def resolveArgs (vars : Vars) (args : List Argument) :
    List (String × ResolvedArg) :=
  args.map fun a =>
    (a.name,
      match a.value with
      | .variable n => .fromVar (lookupVar vars n)
      | v => .lit v)

def svLookup (sv : ServerVal) (nm : String)
    (args : List (String × ResolvedArg)) : ServerVal :=
  match sv with
  | .obj fields =>
    match fields.find? (fun e => e.1.1 == nm && rargsBeq e.1.2 args) with
    | some e => e.2
    | none => .missing
  | _ => .missing

mutual
def evalVal (fuel : Nat) (frags : List FragmentDefinition) (vars : Vars)
    (sv : ServerVal) (ss : Option (List Selection)) : Data :=
  match fuel with
  | 0 => .null
  | fuel + 1 =>
    match sv with
    | .missing => .null
    | .leaf d => d
    | .list items => .arr (evalArr fuel frags vars items ss)
    | .obj fields =>
      match ss with
      | none => .null
      | some sels => .obj (evalSels fuel frags vars (.obj fields) sels)
def evalArr (fuel : Nat) (frags : List FragmentDefinition) (vars : Vars)
    (items : List ServerVal) (ss : Option (List Selection)) : List Data :=
  match fuel with
  | 0 => []
  | fuel + 1 =>
    match items with
    | [] => []
    | sv :: rest => evalVal fuel frags vars sv ss :: evalArr fuel frags vars rest ss
def evalSels (fuel : Nat) (frags : List FragmentDefinition) (vars : Vars)
    (sv : ServerVal) (sels : List Selection) : List (String × Data) :=
  match fuel with
  | 0 => []
  | fuel + 1 =>
    match sels with
    | [] => []
    | sel :: rest =>
      (match sel with
       | .field al n args _ ss =>
         [(al.getD n, evalVal fuel frags vars (svLookup sv n (resolveArgs vars args)) ss)]
       | .fragmentSpread fn _ =>
         match frags.find? (fun f => f.name == fn) with
         | some f => evalSels fuel frags vars sv f.selectionSet
         | none => []
       | .inlineFragment _ _ iss => evalSels fuel frags vars sv iss) ++
        evalSels fuel frags vars sv rest
end

/-- Dispatch one query against a server model: evaluate the first operation
definition's selection set at the server root, using the document's own
fragment definitions. -/
def dispatch (server : ServerVal) (fuel : Nat) (q : Query) : Response :=
  let frags := fragmentDefs q.query
  let op := (q.query.filterMap fun d =>
    match d with
    | .operation o => some o
    | .fragment _ => none).headD ⟨"query", none, [], [], []⟩
  ⟨.obj (evalSels fuel frags q.varValues server op.selectionSet), none⟩

/-- Modelled from the spec: the eligibility condition as the claim states
it — the document has exactly one query operation, that operation carries
no directives, and every top-level selection of that operation is a plain
field.  Stated for comparison with the implemented filter `mergeable`. -/
def claimEligible (doc : Document) : Bool :=
  match queryOps doc with
  | [op] => op.directives.isEmpty && op.selectionSet.all Selection.isField
  | _ => false

/-! ### Concrete inputs used by the counterexamples and witnesses below -/

/-- A plain unaliased field without directives. -/
def fld (n : String) (args : List Argument) (ss : Option (List Selection)) :
    Selection :=
  .field none n args [] ss

/-- An aliased field without directives. -/
def fldA (al n : String) (args : List Argument) (ss : Option (List Selection)) :
    Selection :=
  .field (some al) n args [] ss

/-- An argument whose value is a variable reference. -/
def varArg (an vn : String) : Argument := ⟨an, .variable vn⟩

/-- A variable definition with no default and no directives. -/
def vdecl (n : String) : VariableDefinition := ⟨n, "Int!", none, []⟩

/-- A document holding a single query operation. -/
def qdoc (vds : List VariableDefinition) (sels : List Selection) : Document :=
  [.operation ⟨"query", none, vds, [], sels⟩]

/-- First failing-input query for the round trip:
`query($v: Int!) { u { ...F } }  fragment F on T { f(x: $v) }`, `v = 1`. -/
def rtq1 : Query :=
  ⟨[.operation ⟨"query", none, [vdecl "v"], [], [fld "u" [] (some [.fragmentSpread "F" []])]⟩,
    .fragment ⟨"F", "T", [], [fld "f" [varArg "x" "v"] none]⟩], [("v", .num 1)]⟩

/-- Second failing-input query for the round trip:
`query($v: Int!) { w { ...G } }  fragment G on T { g(y: $v) }`, `v = 2`. -/
def rtq2 : Query :=
  ⟨[.operation ⟨"query", none, [vdecl "v"], [], [fld "w" [] (some [.fragmentSpread "G" []])]⟩,
    .fragment ⟨"G", "T", [], [fld "g" [varArg "y" "v"] none]⟩], [("v", .num 2)]⟩

/-- A server for the failing input that answers `f` and `g` purely by the
resolved value of their argument, regardless of batching. -/
def rtServer : ServerVal := .obj
  [(("u", []), .obj [(("f", [("x", .fromVar (.num 1))]), .leaf (.str "f1")),
                     (("f", [("x", .fromVar (.num 2))]), .leaf (.str "f2"))]),
   (("w", []), .obj [(("g", [("y", .fromVar (.num 1))]), .leaf (.str "g1")),
                     (("g", [("y", .fromVar (.num 2))]), .leaf (.str "g2"))])]

/-- A mergeable one-field query `{ a }`. -/
def exqa : Query := ⟨qdoc [] [fld "a" [] none], []⟩

/-- A document with one clean query operation plus a mutation operation;
the claimed eligibility condition accepts it, the implemented filter does
not. -/
def exqb : Query :=
  ⟨[.operation ⟨"query", none, [], [], [fld "b" [] none]⟩,
    .operation ⟨"mutation", none, [], [], [fld "m" [] none]⟩], []⟩

/-- The per-query responses the library reconstructs on the failing input:
`unmergeAllQueries` applied to the responses of dispatching `allQueries`
against `rtServer`. -/
def rtMergedResults : List Response :=
  match merge [rtq1, rtq2] with
  | .ok r => r.unmergeAllQueries (r.allQueries.map (dispatch rtServer 20))
  | .error _ => []

/-- The responses of dispatching each failing-input query individually
against the same server. -/
def rtIndividualResults : List Response :=
  [rtq1, rtq2].map (dispatch rtServer 20)

/-- First query of the alias-collision counterexample: `{ f: g  f }`. -/
def acq1 : Query := ⟨qdoc [] [fldA "f" "g" [] none, fld "f" [] none], []⟩

/-- Second query of the alias-collision counterexample: `{ f(x: 2) }`. -/
def acq2 : Query := ⟨qdoc [] [fld "f" [⟨"x", .intV "2"⟩] none], []⟩

/-- The name of a field selection. -/
def Selection.nameOf : Selection → String
  | .field _ n _ _ _ => n
  | .fragmentSpread n _ => n
  | .inlineFragment _ _ _ => ""

/-- The alias of a field selection. -/
def Selection.aliasOf : Selection → Option String
  | .field al _ _ _ _ => al
  | _ => none

/-- The arguments of a field selection. -/
def Selection.argsOf : Selection → List Argument
  | .field _ _ args _ _ => args
  | _ => []

/-- The single query operation of a mergeable document, as read by `merge`. -/
def theOp (doc : Document) : OperationDefinition :=
  (queryOps doc).headD ⟨"query", none, [], [], []⟩

/-- Is this value node a variable reference? -/
def ValueNode.isVariable : ValueNode → Bool
  | .variable _ => true
  | _ => false

/-- No argument value is a variable reference, so `renameVariables` leaves
the argument list untouched. -/
def varFreeArgs (args : List Argument) : Bool :=
  args.all fun a => ! a.value.isVariable

/-- Two selections agree on everything `mergeFields` reads back from the
combined list except the selection set: alias, name, arguments and
field-ness.  Folding later fields only rewrites selection sets of existing
entries, so entries evolve inside this relation. -/
def accEq (a b : Selection) : Prop :=
  a.aliasOf = b.aliasOf ∧ a.nameOf = b.nameOf ∧ a.argsOf = b.argsOf ∧
    a.isField = b.isField

/-- First witness query for alias collision avoidance: `{ f(x: 1) }`. -/
def wq1 : Query := ⟨qdoc [] [fld "f" [⟨"x", .intV "1"⟩] none], []⟩

/-- Second witness query for alias collision avoidance: `{ f(x: 2) }`. -/
def wq2 : Query := ⟨qdoc [] [fld "f" [⟨"x", .intV "2"⟩] none], []⟩

/-- All variable names declared by the operations of a document. -/
def docVarNames (doc : Document) : List String :=
  (doc.map fun d =>
    match d with
    | .operation op => op.variableDefinitions.map (·.varName)
    | .fragment _ => []).flatten

/-- The names of the fragment definitions of a document. -/
def docFragNames (doc : Document) : List String :=
  doc.filterMap fun d =>
    match d with
    | .operation _ => none
    | .fragment f => some f.name

/-! ## Theorems

First the shared helper lemmas about the name generator and allocator, then
one theorem per claim. -/

theorem char_toNat_ofNat (n : Nat) (h : n < 55296) : (Char.ofNat n).toNat = n := by
  unfold Char.ofNat
  rw [dif_pos (Or.inl h)]
  simp [Char.ofNatAux, Char.toNat, UInt32.toNat, UInt32.ofNatCore]

theorem fromAlpha_append (l : List Char) (c : Char) :
    fromAlpha (l ++ [c]) = 26 * fromAlpha l + (c.toNat - 96) := by
  simp [fromAlpha, List.foldl_append]
  omega

theorem fromAlpha_toAlpha (m : Nat) : fromAlpha (toAlpha m) = m := by
  induction m using Nat.strong_induction_on with
  | _ m ih =>
    match m with
    | 0 => simp [toAlpha, fromAlpha]
    | m + 1 =>
      rw [toAlpha, fromAlpha_append, ih (m / 26) (by omega),
        char_toNat_ofNat _ (by omega)]
      have := Nat.div_add_mod m 26
      omega

theorem genAlpha_injective : Function.Injective generateAlphabeticNameFromNumber := by
  intro a b h
  have hd : toAlpha (a + 1) = toAlpha (b + 1) := congrArg String.data h
  have := congrArg fromAlpha hd
  rw [fromAlpha_toAlpha, fromAlpha_toAlpha] at this
  omega

theorem allocLoop_fresh (fuel : Nat) : ∀ used counter,
    (((List.range fuel).map fun i =>
        generateAlphabeticNameFromNumber (counter + i)).filter
      fun s => decide (s ∈ used)).length < fuel →
    (allocLoop fuel used counter).1 ∉ used := by
  induction fuel with
  | zero => intro used counter h; omega
  | succ fuel ih =>
    intro used counter h
    by_cases hc : generateAlphabeticNameFromNumber counter ∈ used
    · rw [allocLoop, if_pos hc]
      apply ih used (counter + 1)
      rw [List.range_succ_eq_map] at h
      simp only [List.map_cons, List.map_map] at h
      rw [List.filter_cons] at h
      have harg : ((List.range fuel).map fun i =>
          generateAlphabeticNameFromNumber (counter + 1 + i)) =
          (List.range fuel).map
            ((fun i => generateAlphabeticNameFromNumber (counter + i)) ∘ Nat.succ) := by
        apply List.map_congr_left
        intro i _
        simp [Function.comp]
        congr 1
        omega
      rw [harg]
      simp only [Nat.add_zero] at h
      rw [if_pos (decide_eq_true hc)] at h
      simp only [List.length_cons] at h
      omega
    · rw [allocLoop, if_neg hc]
      exact hc

theorem candidates_filter_le (used : List String) (fuel counter : Nat) :
    (((List.range fuel).map fun i =>
        generateAlphabeticNameFromNumber (counter + i)).filter
      fun s => decide (s ∈ used)).length ≤ used.length := by
  have hinj : Function.Injective fun i =>
      generateAlphabeticNameFromNumber (counter + i) := by
    intro a b h
    have := genAlpha_injective h
    omega
  have hnd : (((List.range fuel).map fun i =>
      generateAlphabeticNameFromNumber (counter + i)).filter
        fun s => decide (s ∈ used)).Nodup :=
    ((List.nodup_range fuel).map hinj).filter _
  have hsub : (((List.range fuel).map fun i =>
      generateAlphabeticNameFromNumber (counter + i)).filter
        fun s => decide (s ∈ used)) ⊆ used := by
    intro x hx
    have := List.of_mem_filter hx
    simpa using this
  exact (List.subperm_of_subset hnd hsub).length_le

theorem NameAlloc.next_fresh (a : NameAlloc) (s : String) :
    (a.next s).1 ∉ a.used := by
  unfold NameAlloc.next
  by_cases h : s ∈ a.used
  · simp only [h, if_true]
    apply allocLoop_fresh
    have := candidates_filter_le a.used (a.used.length + 1) a.counter
    omega
  · rw [if_neg h]
    exact h

theorem NameAlloc.next_used_eq (a : NameAlloc) (s : String) :
    (a.next s).2.used = (a.next s).1 :: a.used := by
  unfold NameAlloc.next
  by_cases h : s ∈ a.used <;> simp [h]

/-- C10: merging the empty input list yields no merged query, empty
`mergedQueries`, `unmergedQueries` and `allQueries`, no
`unmergeMergedQueries`, and the identity `unmergeAllQueries`. -/
theorem merge_empty_input :
    merge [] = .ok ⟨none, [], [], [], none, fun v => v⟩ := rfl

/-- C6: merging a singleton batch attempts no merge: the query is returned
as the only unmerged query and the only entry of `allQueries`, with no
merged query and the identity `unmergeAllQueries`. -/
theorem merge_singleton (q : Query) :
    merge [q] = .ok ⟨none, [], [q], [q], none, fun v => v⟩ := rfl

/-- C2 counterexample: for the Field Mapping `{alias: "b", output: "a"}`
without a child projector and the error path `["b", 0]`, the remapped path
is `["a"]` — the steps after the matched segment are dropped — whereas the
claim demands `["a", 0]`. -/
theorem errorPath_no_child_counterexample :
    mergeFieldsErrorPath [.mk "b" "a" .noChild] [.key "b", .index 0] =
      some [Step.key "a"] ∧
    (some [Step.key "a"] : Option (List Step)) ≠
      some [Step.key "a", Step.index 0] := by
  refine ⟨?_, by simp⟩
  simp [mergeFieldsErrorPath, errorPathScan, findFirstKey]

/-- C2 (amended): when the first string step of a combined-document error
path matches the alias of the first matching Field Mapping and that mapping
has no child projector, the remapped path is the path unchanged if
`output = alias`, and otherwise the steps before the matched segment
followed by `output` alone — every step after the matched segment is
dropped. -/
theorem errorPath_no_child (ms : List FieldMapping) (path : List Step)
    (k : Nat) (key : String) (f : FieldMapping)
    (hk : findFirstKey path = some (k, key))
    (hf : ms.find? (fun m => m.aliasName == key) = some f)
    (hnc : f.children = .noChild) :
    mergeFieldsErrorPath ms path =
      some (if f.output = f.aliasName then path
            else path.take k ++ [Step.key f.output]) := by
  have hstep : mergeFieldsErrorPath ms path = errorPathScan ms path k key := by
    rw [mergeFieldsErrorPath.eq_def, hk]
  rw [hstep]
  clear hstep
  induction ms with
  | nil => simp at hf
  | cons m rest ih =>
    obtain ⟨al, out, children⟩ := m
    rw [List.find?_cons] at hf
    by_cases hal : (al == key) = true
    · simp only [FieldMapping.aliasName, hal, if_pos] at hf
      cases hf
      simp only [FieldMapping.children] at hnc
      rw [errorPathScan.eq_def]
      simp only [hal, if_pos, hnc, FieldMapping.output, FieldMapping.aliasName]
      by_cases ho : out = al <;> simp [ho]
    · simp only [FieldMapping.aliasName, hal, Bool.false_eq_true, if_false] at hf
      rw [errorPathScan.eq_def]
      simp only [hal, Bool.false_eq_true, if_false]
      exact ih hf

/-- C2 witness: the amended theorem applied to the mapping
`{alias: "x", output: "y"}` and path `["x", 2]`. -/
theorem errorPath_no_child_witness :
    mergeFieldsErrorPath [.mk "x" "y" .noChild] [.key "x", .index 2] =
      some [Step.key "y"] := by
  have h := errorPath_no_child [.mk "x" "y" .noChild] [.key "x", .index 2]
    0 "x" (.mk "x" "y" .noChild) (by simp [findFirstKey]) (by simp [FieldMapping.aliasName])
    (by simp [FieldMapping.children])
  simpa [FieldMapping.output, FieldMapping.aliasName] using h

theorem findExistingVariable_isSome_iff (defs : List VariableDefinition)
    (values : Vars) (vd : VariableDefinition) (value : JValue) :
    (findExistingVariable defs values vd value).isSome = true ↔
      ∃ d ∈ defs, valueNodesAreEqual d.defaultValue vd.defaultValue = true ∧
        d.directives = [] ∧ vd.directives = [] ∧
        lookupVar values d.varName = value := by
  unfold findExistingVariable
  constructor
  · intro hs
    cases hfind : List.find? (fun d =>
        valueNodesAreEqual d.defaultValue vd.defaultValue &&
        d.directives.isEmpty && vd.directives.isEmpty &&
        lookupVar values d.varName == value) defs with
    | none => rw [hfind] at hs; simp at hs
    | some d =>
      have hmem := List.mem_of_find?_eq_some hfind
      have hp := List.find?_some hfind
      simp only [Bool.and_eq_true, List.isEmpty_iff, beq_iff_eq] at hp
      exact ⟨d, hmem, hp.1.1.1, hp.1.1.2, hp.1.2, hp.2⟩
  · rintro ⟨d, hd, h1, h2, h3, h4⟩
    cases hfind : List.find? (fun d =>
        valueNodesAreEqual d.defaultValue vd.defaultValue &&
        d.directives.isEmpty && vd.directives.isEmpty &&
        lookupVar values d.varName == value) defs with
    | none =>
      exfalso
      apply List.find?_eq_none.mp hfind d hd
      simp [h1, h2, h3, h4]
    | some x => simp [hfind]

/-- C5 counterexample: a variable definition whose default value is the
empty list literal, declared again with a structurally identical default,
no directives anywhere, and the same bound runtime value: the claim demands
reuse of the combined variable, but the code creates a second combined
variable (the defaults are list-valued, and `valueNodesAreEqual` answers
false for every non-scalar kind). -/
theorem variable_dedup_counterexample :
    (⟨"v", "Int!", some (.listV []), []⟩ : VariableDefinition).defaultValue =
      (⟨"v", "Int!", some (.listV []), []⟩ : VariableDefinition).defaultValue ∧
    lookupVar [("v", JValue.num 1)] "v" = JValue.num 1 ∧
    findExistingVariable [⟨"v", "Int!", some (.listV []), []⟩]
      [("v", JValue.num 1)] ⟨"v", "Int!", some (.listV []), []⟩
      (JValue.num 1) = none ∧
    (processVariable
        ⟨⟨["v"], 1⟩, [⟨"v", "Int!", some (.listV []), []⟩], [("v", JValue.num 1)], []⟩
        [("v", JValue.num 1)] ⟨"v", "Int!", some (.listV []), []⟩).variableDefinitions =
      [⟨"v", "Int!", some (.listV []), []⟩, ⟨"b", "Int!", some (.listV []), []⟩] := by
  refine ⟨rfl, rfl, rfl, ?_⟩
  simp [processVariable, findExistingVariable, valueNodesAreEqual, lookupVar,
    NameAlloc.next, allocLoop, generateAlphabeticNameFromNumber, toAlpha]

/-- C5 (amended): when folding a mergeable query's variable definitions, a
declared variable is mapped to an already-assigned combined variable name —
no new combined definition is pushed — if and only if some earlier combined
variable definition has a default value that the scalar-only comparison
`valueNodesAreEqual` accepts (both absent, or equal literals of null,
boolean, int, float or string kind; structured defaults never compare
equal), neither definition carries directives, and the bound runtime values
are strictly equal; otherwise exactly one new combined variable definition
is appended. -/
theorem variable_dedup (st : VarState) (localVars : Vars)
    (vd : VariableDefinition) :
    ((processVariable st localVars vd).variableDefinitions =
        st.variableDefinitions ↔
      ∃ d ∈ st.variableDefinitions,
        valueNodesAreEqual d.defaultValue vd.defaultValue = true ∧
        d.directives = [] ∧ vd.directives = [] ∧
        lookupVar st.varValues d.varName = lookupVar localVars vd.varName) ∧
    ((processVariable st localVars vd).variableDefinitions ≠
        st.variableDefinitions ↔
      ∃ nv, (processVariable st localVars vd).variableDefinitions =
        st.variableDefinitions ++ [nv]) := by
  have hiff := findExistingVariable_isSome_iff st.variableDefinitions
    st.varValues vd (lookupVar localVars vd.varName)
  cases h : findExistingVariable st.variableDefinitions st.varValues vd
      (lookupVar localVars vd.varName) with
  | some nm =>
    have hex := hiff.mp (by simp [h])
    have heq : (processVariable st localVars vd).variableDefinitions =
        st.variableDefinitions := by
      simp only [processVariable, h]
    rw [heq]
    refine ⟨⟨fun _ => hex, fun _ => rfl⟩, ?_, ?_⟩
    · intro hne; exact absurd rfl hne
    · rintro ⟨nv, hnv⟩
      exact absurd (congrArg List.length hnv) (by simp)
  | none =>
    have hnotex : ¬ ∃ d ∈ st.variableDefinitions,
        valueNodesAreEqual d.defaultValue vd.defaultValue = true ∧
        d.directives = [] ∧ vd.directives = [] ∧
        lookupVar st.varValues d.varName = lookupVar localVars vd.varName := by
      intro hex
      have := hiff.mpr hex
      rw [h] at this
      simp at this
    have heq : (processVariable st localVars vd).variableDefinitions =
        st.variableDefinitions ++
          [{ vd with varName := (st.alloc.next vd.varName).1 }] := by
      simp only [processVariable, h]
    rw [heq]
    refine ⟨⟨?_, fun hex => absurd hex hnotex⟩, fun _ => ⟨_, rfl⟩, fun _ => ?_⟩
    · intro heq'
      exact absurd (congrArg List.length heq') (by simp)
    · intro heq'
      exact absurd (congrArg List.length heq') (by simp)

theorem isField_renameVarsSel (m : List (String × String)) (s : Selection) :
    (renameVarsSel m s).isField = s.isField := by
  cases s <;> simp [renameVarsSel, Selection.isField]

theorem all_isField_renameVarsSels (m : List (String × String))
    (l : List Selection) :
    (renameVarsSels m l).all Selection.isField = l.all Selection.isField := by
  induction l with
  | nil => rfl
  | cons s rest ih =>
    simp [renameVarsSels, List.all_cons, isField_renameVarsSel, ih]

theorem all_isField_renameVariables (l : List Selection)
    (m : List (String × String)) :
    (renameVariables l m).all Selection.isField = l.all Selection.isField := by
  unfold renameVariables
  split
  · rfl
  · exact all_isField_renameVarsSels m l

theorem isField_renameFragsSel (m : List (String × String)) (s : Selection) :
    (renameFragsSel m s).isField = s.isField := by
  cases s with
  | field al n args dirs ss => simp [renameFragsSel, Selection.isField]
  | fragmentSpread n d =>
    simp only [renameFragsSel]
    cases m.find? (fun p => p.1 == n) <;> simp [Selection.isField]
  | inlineFragment tc d ss => simp [renameFragsSel, Selection.isField]

theorem all_isField_renameFragsSels (m : List (String × String))
    (l : List Selection) :
    (renameFragsSels m l).all Selection.isField = l.all Selection.isField := by
  induction l with
  | nil => rfl
  | cons s rest ih =>
    simp [renameFragsSels, List.all_cons, isField_renameFragsSel, ih]

theorem all_isField_renameFragments (l : List Selection)
    (m : List (String × String)) :
    (renameFragments l m).all Selection.isField = l.all Selection.isField := by
  unfold renameFragments
  split
  · rfl
  · exact all_isField_renameFragsSels m l

theorem mergeDefsGo_error_iff (defs : List DefInput) : ∀ st : MergeDefsState,
    (∃ e, mergeDefsGo st defs = .error e) ↔
      ∃ d ∈ defs, d.query.selectionSet.all Selection.isField = false := by
  induction defs with
  | nil => intro st; simp [mergeDefsGo]
  | cons d rest ih =>
    intro st
    rw [mergeDefsGo]
    rw [all_isField_renameVariables]
    by_cases hall : d.query.selectionSet.all Selection.isField = true
    · rw [if_pos hall, ih]
      constructor
      · rintro ⟨d', hd', hbad⟩
        exact ⟨d', List.mem_cons_of_mem _ hd', hbad⟩
      · rintro ⟨d', hd', hbad⟩
        rcases List.mem_cons.mp hd' with heq | hmem
        · subst heq
          rw [hall] at hbad
          cases hbad
        · exact ⟨d', hmem, hbad⟩
    · rw [if_neg hall]
      constructor
      · intro _
        exact ⟨d, List.mem_cons_self d rest,
          Bool.eq_false_iff.mpr hall⟩
      · intro _
        exact ⟨_, rfl⟩

theorem mergeDefsGo_ok (defs : List DefInput)
    (hall : ∀ d ∈ defs, d.query.selectionSet.all Selection.isField = true)
    (st : MergeDefsState) : ∃ st', mergeDefsGo st defs = .ok st' := by
  cases h : mergeDefsGo st defs with
  | ok st' => exact ⟨st', rfl⟩
  | error e =>
    obtain ⟨d, hd, hbad⟩ := (mergeDefsGo_error_iff defs st).mp ⟨e, h⟩
    rw [hall d hd] at hbad
    cases hbad

theorem addFragment_definitions (st : Phase2State)
    (m : List (String × String)) (f : FragmentDefinition) :
    (addFragment st m f).1.definitions = st.definitions ∧
    (addFragment st m f).1.mergedQueries = st.mergedQueries ∧
    (addFragment st m f).1.unmergedQueries = st.unmergedQueries := by
  unfold addFragment
  cases st.fragNames.find? (fun p => fragBeq p.1 f) <;> simp

theorem addFragments_definitions (l : List FragmentDefinition) :
    ∀ (st : Phase2State) (m : List (String × String)),
    (addFragments st m l).1.definitions = st.definitions ∧
    (addFragments st m l).1.mergedQueries = st.mergedQueries ∧
    (addFragments st m l).1.unmergedQueries = st.unmergedQueries := by
  induction l with
  | nil => intro st m; exact ⟨rfl, rfl, rfl⟩
  | cons f rest ih =>
    intro st m
    rw [addFragments]
    obtain ⟨h1, h2, h3⟩ := addFragment_definitions st m f
    obtain ⟨i1, i2, i3⟩ := ih (addFragment st m f).1 (addFragment st m f).2
    exact ⟨by rw [i1, h1], by rw [i2, h2], by rw [i3, h3]⟩

theorem mem_queryOps (doc : Document) (op : OperationDefinition)
    (h : op ∈ queryOps doc) :
    Definition.operation op ∈ doc ∧ op.operation = "query" := by
  unfold queryOps at h
  rw [List.mem_filterMap] at h
  obtain ⟨d, hd, hfd⟩ := h
  cases d with
  | operation o =>
    have hfd' : (if (o.operation == "query") = true then some o else none) =
        some op := hfd
    by_cases ho : (o.operation == "query") = true
    · rw [if_pos ho] at hfd'
      cases hfd'
      exact ⟨hd, by simpa using ho⟩
    · rw [if_neg ho] at hfd'
      cases hfd'
  | fragment f =>
    have hfd' : (none : Option OperationDefinition) = some op := hfd
    cases hfd'

theorem mergeable_head_allField (doc : Document) (h : mergeable doc = true) :
    ((queryOps doc).headD ⟨"query", none, [], [], []⟩).selectionSet.all
      Selection.isField = true := by
  unfold mergeable at h
  rw [Bool.and_eq_true] at h
  obtain ⟨op, hops⟩ := List.length_eq_one.mp (by simpa using h.2)
  rw [hops]
  have hmem : op ∈ queryOps doc := by rw [hops]; exact List.mem_singleton.mpr rfl
  obtain ⟨hdoc, hq⟩ := mem_queryOps doc op hmem
  have := (List.all_eq_true.mp h.1) _ hdoc
  simp only [eligibleDef, Bool.and_eq_true] at this
  exact this.1.2

theorem phase2_defs_allField (qs : List Query) : ∀ st : Phase2State,
    (∀ p ∈ st.definitions,
      p.2.query.selectionSet.all Selection.isField = true) →
    ∀ p ∈ (phase2 st qs).definitions,
      p.2.query.selectionSet.all Selection.isField = true := by
  induction qs with
  | nil => intro st h; exact h
  | cons q rest ih =>
    intro st h
    rw [phase2]
    apply ih
    unfold phase2Step
    by_cases hm : mergeable q.query = true
    · rw [if_pos hm]
      intro p hp
      simp only [(addFragments_definitions _ _ _).1] at hp
      rcases List.mem_append.mp hp with hmem | hmem
      · exact h p hmem
      · rcases List.mem_singleton.mp hmem with rfl
        simp only [all_isField_renameFragments]
        exact mergeable_head_allField q.query hm
    · rw [if_neg hm]
      exact h

/-- Every call of `merge` succeeds; shared by several claims below. -/
theorem merge_total (qs : List Query) : ∃ r, merge qs = .ok r := by
  unfold merge
  by_cases hlen : (qs.length == 1) = true
  · rw [if_pos hlen]
    exact ⟨_, rfl⟩
  · rw [if_neg hlen]
    by_cases hdef :
        (phase2 ⟨[], [], [], [], uniqueNameSet [], []⟩ qs).definitions.isEmpty = true
    · rw [if_pos hdef]
      exact ⟨_, rfl⟩
    · rw [if_neg hdef]
      have hall : ∀ d ∈ (phase2 ⟨[], [], [], [], uniqueNameSet [], []⟩
          qs).definitions.map (·.2),
          d.query.selectionSet.all Selection.isField = true := by
        intro d hd
        rw [List.mem_map] at hd
        obtain ⟨p, hp, rfl⟩ := hd
        exact phase2_defs_allField qs _ (by intro p hp; cases hp) p hp
      obtain ⟨st', hst'⟩ := mergeDefsGo_ok _ hall ⟨uniqueNameSet [], [], [], [], []⟩
      have hmd : mergeDefinitions
          ((phase2 ⟨[], [], [], [], uniqueNameSet [], []⟩ qs).definitions.map (·.2)) =
          .ok ⟨⟨"query", none, st'.variableDefinitions, [], st'.selections⟩,
            st'.varValues, st'.extractResults⟩ := by
        unfold mergeDefinitions
        rw [hst']
        rfl
      rw [hmd]
      exact ⟨_, rfl⟩

/-- C9: the fatal structural error is unreachable for queries that passed
the eligibility filter — `merge` always succeeds, because variable and
fragment renaming preserve selection kinds and the filter required every
top-level selection to be a field — and `mergeDefinitions` throws exactly
when some folded operation's top-level selection set contains a non-field
selection. -/
theorem structural_error_unreachable :
    (∀ qs : List Query, ∃ r, merge qs = .ok r) ∧
    (∀ defs : List DefInput,
      (∃ e, mergeDefinitions defs = .error e) ↔
        ∃ d ∈ defs, ∃ s ∈ d.query.selectionSet, s.isField = false) := by
  refine ⟨merge_total, fun defs => ?_⟩
  have hbase := mergeDefsGo_error_iff defs ⟨uniqueNameSet [], [], [], [], []⟩
  unfold mergeDefinitions
  constructor
  · rintro ⟨e, he⟩
    cases h : mergeDefsGo ⟨uniqueNameSet [], [], [], [], []⟩ defs with
    | ok st' => rw [h] at he; cases he
    | error e' =>
      obtain ⟨d, hd, hbad⟩ := hbase.mp ⟨e', h⟩
      obtain ⟨s, hs, hns⟩ := List.all_eq_false.mp hbad
      exact ⟨d, hd, s, hs, by simpa using hns⟩
  · rintro ⟨d, hd, s, hs, hns⟩
    have hbad : d.query.selectionSet.all Selection.isField = false :=
      List.all_eq_false.mpr ⟨s, hs, by simp [hns]⟩
    obtain ⟨e, he⟩ := hbase.mpr ⟨d, hd, hbad⟩
    exact ⟨e, by rw [he]; rfl⟩

/-- C9 witness: the second conjunct applied to a single definition whose
top-level selection set holds an inline fragment. -/
theorem structural_error_unreachable_witness :
    ∃ e, mergeDefinitions
      [⟨⟨"query", none, [], [], [.inlineFragment none [] []]⟩, []⟩] =
        .error e := by
  apply (structural_error_unreachable.2 _).mpr
  refine ⟨_, List.mem_singleton.mpr rfl, .inlineFragment none [] [], ?_, rfl⟩
  exact List.mem_singleton.mpr rfl

theorem phase2Step_queries (st : Phase2State) (q : Query) :
    (mergeable q.query = true →
      (phase2Step st q).mergedQueries = st.mergedQueries ++ [q] ∧
      (phase2Step st q).unmergedQueries = st.unmergedQueries) ∧
    (mergeable q.query = false →
      (phase2Step st q).mergedQueries = st.mergedQueries ∧
      (phase2Step st q).unmergedQueries = st.unmergedQueries ++ [q]) := by
  unfold phase2Step
  constructor
  · intro hm
    rw [if_pos hm]
    constructor
    · show (addFragments st [] (fragmentDefs q.query)).1.mergedQueries ++ [q] = _
      rw [(addFragments_definitions _ _ _).2.1]
    · show (addFragments st [] (fragmentDefs q.query)).1.unmergedQueries = _
      rw [(addFragments_definitions _ _ _).2.2]
  · intro hm
    rw [if_neg (by simp [hm])]
    exact ⟨rfl, rfl⟩

theorem phase2_partition (qs : List Query) : ∀ st : Phase2State,
    (phase2 st qs).mergedQueries =
      st.mergedQueries ++ qs.filter (fun q => mergeable q.query) ∧
    (phase2 st qs).unmergedQueries =
      st.unmergedQueries ++ qs.filter (fun q => !mergeable q.query) := by
  induction qs with
  | nil => intro st; simp [phase2]
  | cons q rest ih =>
    intro st
    rw [phase2]
    rw [(ih _).1, (ih _).2]
    by_cases hm : mergeable q.query = true
    · obtain ⟨h1, h2⟩ := (phase2Step_queries st q).1 hm
      rw [h1, h2]
      simp [List.filter_cons, hm]
    · obtain ⟨h1, h2⟩ := (phase2Step_queries st q).2 (Bool.eq_false_iff.mpr hm)
      rw [h1, h2]
      simp [List.filter_cons, Bool.eq_false_iff.mpr hm]

/-- C4 (amended): for input lists of length other than one, a query lands in
`mergedQueries` exactly when every definition of its document is either a
directive-free query operation whose top-level selections are all plain
fields, or a directive-free fragment definition, and exactly one definition
is a query operation (so extra operations such as mutations, and directives
on fragment definitions, also disqualify — not only the conditions the
claim lists); all other queries appear untouched, in order, in
`unmergedQueries`.  For singleton inputs even an eligible query is returned
unmerged. -/
theorem eligibility_partition (qs : List Query) (r : MergeResult)
    (hlen : qs.length ≠ 1) (h : merge qs = .ok r) :
    r.mergedQueries = qs.filter (fun q => mergeable q.query) ∧
    r.unmergedQueries = qs.filter (fun q => !mergeable q.query) := by
  unfold merge at h
  rw [if_neg (by simpa using hlen)] at h
  have hpart := phase2_partition qs ⟨[], [], [], [], uniqueNameSet [], []⟩
  simp only [List.nil_append] at hpart
  by_cases hdef :
      (phase2 ⟨[], [], [], [], uniqueNameSet [], []⟩ qs).definitions.isEmpty = true
  · rw [if_pos hdef] at h
    cases h
    exact hpart
  · rw [if_neg hdef] at h
    cases hgo : mergeDefinitions
        ((phase2 ⟨[], [], [], [], uniqueNameSet [], []⟩ qs).definitions.map (·.2)) with
    | ok m =>
      rw [hgo] at h
      cases h
      exact hpart
    | error e => rw [hgo] at h; cases h

/-- C4 witness: the amended theorem applied to `[exqa, exqb]`; the document
of `exqb` satisfies the claimed eligibility condition yet is routed to the
unmerged side, exhibiting the divergence from the claim as stated. -/
theorem eligibility_partition_witness :
    claimEligible exqb.query = true ∧
    (merge [exqa, exqb]).map (fun r => (r.mergedQueries, r.unmergedQueries)) =
      .ok ([exqa], [exqb]) := by
  constructor
  · rfl
  · obtain ⟨r, hr⟩ := merge_total [exqa, exqb]
    obtain ⟨h1, h2⟩ := eligibility_partition [exqa, exqb] r (by decide) hr
    rw [hr]
    show Except.ok (r.mergedQueries, r.unmergedQueries) = .ok ([exqa], [exqb])
    rw [h1, h2]
    rfl

/-- C4 counterexample: the document of `exqb` has exactly one query
operation, that operation carries no directives and selects only plain
fields — the eligibility condition exactly as the claim states it — yet
`merge` routes `exqb` to `unmergedQueries` and not to `mergedQueries`,
because the implemented filter also rejects documents containing any
further operation definition (here a mutation). -/
theorem eligibility_counterexample :
    claimEligible exqb.query = true ∧
    (merge [exqa, exqb]).map (fun r => (r.mergedQueries, r.unmergedQueries)) =
      .ok ([exqa], [exqb]) ∧
    exqb ∉ ([exqa] : List Query) := by
  refine ⟨rfl, rfl, ?_⟩
  intro h
  have heq := List.mem_singleton.mp h
  exact absurd (congrArg (fun q => q.query.length) heq) (by decide)

/-- Unfolding of the derived boolean equality on runtime values, used to
evaluate the embedding on concrete inputs. -/
theorem jvalue_beq_def (a b : JValue) : (a == b) = decide (a = b) := rfl

set_option maxHeartbeats 2000000 in
/-- C1: the round trip fails on a concrete pair of mergeable queries.  Both
queries declare `$v` but bind different values, and each references `$v`
only inside its fragment definition; variable renaming never rewrites
fragment definitions, so in the combined document both fragments read the
first query's value.  Against a server that answers every field purely by
name and resolved argument values, the second query's reconstructed
response is `{w: {g: "g1"}}` while dispatching it individually yields
`{w: {g: "g2"}}`. -/
theorem roundtrip_failure :
    rtMergedResults =
      [⟨.obj [("u", .obj [("f", .str "f1")])], none⟩,
       ⟨.obj [("w", .obj [("g", .str "g1")])], none⟩] ∧
    rtIndividualResults =
      [⟨.obj [("u", .obj [("f", .str "f1")])], none⟩,
       ⟨.obj [("w", .obj [("g", .str "g2")])], none⟩] ∧
    rtMergedResults ≠ rtIndividualResults := by
  have h1 : rtMergedResults =
      [⟨.obj [("u", .obj [("f", .str "f1")])], none⟩,
       ⟨.obj [("w", .obj [("g", .str "g1")])], none⟩] := by
    simp +decide [jvalue_beq_def, rtMergedResults, merge, phase2, phase2Step,
      addFragments, addFragment, mergeable, eligibleDef, queryOps,
      fragmentDefs, mergeDefinitions, mergeDefsGo, processVariables,
      processVariable, findExistingVariable, valueNodesAreEqual, lookupVar,
      renameVariables, renameVarsSels, renameVarsSel, renameArg,
      renameFragments, renameFragsSels, renameFragsSel, mergeFields,
      mergeFieldsGo, mergeFieldStep, fieldsCanBeMerged, argumentsAreEqual,
      argumentEqual, hasNonField, Selection.isField, outKey, selectionSetOf,
      withSelectionSet, uniqueNameSet, NameAlloc.next, allocLoop,
      generateAlphabeticNameFromNumber, toAlpha, fragBeq, selsBeq, selBeq,
      argsBeq, argBeq, valBeq, rtq1, rtq2, rtServer, dispatch, evalSels,
      evalVal, evalArr, svLookup, resolveArgs, rargsBeq, rargBeq, unmergeData,
      unmergeErrors, selectByFieldMappings, selectByFieldMappingsArr,
      mappingEntries, selectSelectionSet, selectSelArr, selectSelFields,
      getKey, isFalsy, buildMergedMap, assocSetQ, assocGetQ, setOthers,
      junkResponse, queryBeq, docBeq, defBeq, opBeq, varDefsBeq, varDefBeq,
      optValBeq, fld, fldA, varArg, vdecl, qdoc, List.find?, List.findIdx?,
      FieldMapping.aliasName, FieldMapping.output, FieldMapping.children,
      findFirstKey, mergeFieldsErrorPath, errorPathScan,
      errorPathForSelectionSet, epssLoop, Except.map, Option.getD, Option.map,
      List.headD, List.head?, List.tail, List.zip, List.zipWith,
      List.filterMap, List.all, List.any]
  have h2 : rtIndividualResults =
      [⟨.obj [("u", .obj [("f", .str "f1")])], none⟩,
       ⟨.obj [("w", .obj [("g", .str "g2")])], none⟩] := by
    simp +decide [jvalue_beq_def, rtIndividualResults, rtq1, rtq2, rtServer,
      dispatch, evalSels, evalVal, evalArr, svLookup, resolveArgs, rargsBeq,
      rargBeq, fragmentDefs, lookupVar, fld, varArg, vdecl, qdoc, valBeq,
      List.find?, List.headD, List.head?]
  refine ⟨h1, h2, ?_⟩
  rw [h1, h2]
  simp

theorem processVariables_names (vds : List VariableDefinition) :
    ∀ (st : VarState) (localVars : Vars),
    (st.variableDefinitions.map (·.varName)).Nodup →
    (∀ n ∈ st.variableDefinitions.map (·.varName), n ∈ st.alloc.used) →
    ((processVariables st localVars vds).variableDefinitions.map
      (·.varName)).Nodup ∧
    (∀ n ∈ (processVariables st localVars vds).variableDefinitions.map
        (·.varName),
      n ∈ (processVariables st localVars vds).alloc.used) := by
  induction vds with
  | nil => intro st localVars hnd hsub; exact ⟨hnd, hsub⟩
  | cons vd rest ih =>
    intro st localVars hnd hsub
    rw [processVariables]
    apply ih
    all_goals
      cases h : findExistingVariable st.variableDefinitions st.varValues vd
          (lookupVar localVars vd.varName) with
      | some nm =>
        have hdefs : (processVariable st localVars vd).variableDefinitions =
            st.variableDefinitions := by simp only [processVariable, h]
        have halloc : (processVariable st localVars vd).alloc = st.alloc := by
          simp only [processVariable, h]
        simp only [hdefs, halloc]
        first
          | exact hnd
          | exact hsub
      | none =>
        have hdefs : (processVariable st localVars vd).variableDefinitions =
            st.variableDefinitions ++
              [{ vd with varName := (st.alloc.next vd.varName).1 }] := by
          simp only [processVariable, h]
        have halloc : (processVariable st localVars vd).alloc =
            (st.alloc.next vd.varName).2 := by
          simp only [processVariable, h]
        have hfresh := NameAlloc.next_fresh st.alloc vd.varName
        have hused := NameAlloc.next_used_eq st.alloc vd.varName
        simp only [hdefs, halloc]
        first
          | -- the Nodup goal
            (rw [List.map_append]
             apply List.Nodup.append hnd (by simp)
             intro n hn hn'
             simp only [List.map_cons, List.map_nil, List.mem_singleton] at hn'
             subst hn'
             exact hfresh (hsub _ hn))
          | -- the subset goal
            (intro n hn
             rw [List.map_append] at hn
             rw [hused]
             rcases List.mem_append.mp hn with hmem | hmem
             · exact List.mem_cons_of_mem _ (hsub _ hmem)
             · simp only [List.map_cons, List.map_nil,
                 List.mem_singleton] at hmem
               subst hmem
               exact List.mem_cons_self _ _)

theorem mergeDefsGo_varNames (defs : List DefInput) :
    ∀ st : MergeDefsState,
    (st.variableDefinitions.map (·.varName)).Nodup →
    (∀ n ∈ st.variableDefinitions.map (·.varName), n ∈ st.alloc.used) →
    ∀ st', mergeDefsGo st defs = .ok st' →
    (st'.variableDefinitions.map (·.varName)).Nodup := by
  induction defs with
  | nil =>
    intro st hnd hsub st' hok
    rw [mergeDefsGo] at hok
    cases hok
    exact hnd
  | cons d rest ih =>
    intro st hnd hsub st' hok
    simp only [mergeDefsGo] at hok
    by_cases hc : (renameVariables d.query.selectionSet
        (processVariables ⟨st.alloc, st.variableDefinitions, st.varValues, []⟩
          d.varValues d.query.variableDefinitions).mapping).all
        Selection.isField = true
    · rw [if_pos hc] at hok
      have hinv := processVariables_names d.query.variableDefinitions
        ⟨st.alloc, st.variableDefinitions, st.varValues, []⟩ d.varValues
        hnd hsub
      exact ih _ hinv.1 hinv.2 st' hok
    · rw [if_neg hc] at hok
      cases hok

/-- The fragment-side invariant threaded through phase 2. -/
def FragInv (st : Phase2State) : Prop :=
  (st.fragments.map (·.name)).Nodup ∧
  ∀ n ∈ st.fragments.map (·.name), n ∈ st.fragAlloc.used

theorem addFragment_fragInv (st : Phase2State) (m : List (String × String))
    (f : FragmentDefinition) (h : FragInv st) :
    FragInv (addFragment st m f).1 := by
  cases hfind : st.fragNames.find? (fun p => fragBeq p.1 f) with
  | some p =>
    have h1 : (addFragment st m f).1 = st := by
      simp only [addFragment, hfind]
    rw [h1]
    exact h
  | none =>
    have h1 : (addFragment st m f).1.fragments = st.fragments ++
        [if f.name == (st.fragAlloc.next f.name).1 then f
         else { f with name := (st.fragAlloc.next f.name).1 }] := by
      simp only [addFragment, hfind]
    have h2 : (addFragment st m f).1.fragAlloc =
        (st.fragAlloc.next f.name).2 := by
      simp only [addFragment, hfind]
    have hfresh := NameAlloc.next_fresh st.fragAlloc f.name
    have hused := NameAlloc.next_used_eq st.fragAlloc f.name
    have hname : (if f.name == (st.fragAlloc.next f.name).1 then f
        else { f with name := (st.fragAlloc.next f.name).1 }).name =
        (st.fragAlloc.next f.name).1 := by
      by_cases hb : (f.name == (st.fragAlloc.next f.name).1) = true
      · rw [if_pos hb]; exact beq_iff_eq.mp hb
      · rw [if_neg hb]
    constructor
    · rw [h1, List.map_append]
      apply List.Nodup.append h.1 (by simp)
      intro n hn hn'
      simp only [List.map_cons, List.map_nil, List.mem_singleton] at hn'
      subst hn'
      rw [hname] at hn
      exact hfresh (h.2 _ hn)
    · intro n hn
      rw [h1, List.map_append] at hn
      rw [h2, hused]
      rcases List.mem_append.mp hn with hmem | hmem
      · exact List.mem_cons_of_mem _ (h.2 _ hmem)
      · simp only [List.map_cons, List.map_nil, List.mem_singleton] at hmem
        rw [hname] at hmem
        subst hmem
        exact List.mem_cons_self _ _

theorem addFragments_fragInv (l : List FragmentDefinition) :
    ∀ (st : Phase2State) (m : List (String × String)), FragInv st →
    FragInv (addFragments st m l).1 := by
  induction l with
  | nil => intro st m h; exact h
  | cons f rest ih =>
    intro st m h
    rw [addFragments]
    exact ih _ _ (addFragment_fragInv st m f h)

theorem phase2_fragInv (qs : List Query) : ∀ st : Phase2State,
    FragInv st → FragInv (phase2 st qs) := by
  induction qs with
  | nil => intro st h; exact h
  | cons q rest ih =>
    intro st h
    rw [phase2]
    apply ih
    unfold phase2Step
    by_cases hm : mergeable q.query = true
    · rw [if_pos hm]
      have := addFragments_fragInv (fragmentDefs q.query) st [] h
      exact this
    · rw [if_neg hm]
      exact h

theorem docVarNames_combined (op : OperationDefinition)
    (frags : List FragmentDefinition) :
    docVarNames (.operation op :: frags.map .fragment) =
      op.variableDefinitions.map (·.varName) := by
  unfold docVarNames
  simp only [List.map_cons, List.flatten]
  induction frags with
  | nil => simp
  | cons f rest ih =>
    simp only [List.map_cons] at ih ⊢
    simpa using ih

theorem docFragNames_combined (op : OperationDefinition)
    (frags : List FragmentDefinition) :
    docFragNames (.operation op :: frags.map .fragment) =
      frags.map (·.name) := by
  unfold docFragNames
  simp only [List.filterMap_cons]
  induction frags with
  | nil => simp
  | cons f rest ih =>
    simp only [List.map_cons, List.filterMap_cons] at ih ⊢
    simp_all

/-- C8: in the combined document produced by `merge` the declared variable
names are pairwise distinct and the fragment definition names are pairwise
distinct — every kept original name and every freshly minted name passes
through the unique-name allocator, which never returns a name already in
use. -/
theorem combined_names_unique (qs : List Query) (r : MergeResult) (mq : Query)
    (h : merge qs = .ok r) (hmq : r.mergedQuery = some mq) :
    (docVarNames mq.query).Nodup ∧ (docFragNames mq.query).Nodup := by
  unfold merge at h
  by_cases hlen : (qs.length == 1) = true
  · rw [if_pos hlen] at h
    cases h
    cases hmq
  · rw [if_neg hlen] at h
    by_cases hdef :
        (phase2 ⟨[], [], [], [], uniqueNameSet [], []⟩ qs).definitions.isEmpty = true
    · rw [if_pos hdef] at h
      cases h
      cases hmq
    · rw [if_neg hdef] at h
      cases hgo : mergeDefsGo ⟨uniqueNameSet [], [], [], [], []⟩
          ((phase2 ⟨[], [], [], [], uniqueNameSet [], []⟩ qs).definitions.map
            (·.2)) with
      | error e =>
        unfold mergeDefinitions at h
        rw [hgo] at h
        cases h
      | ok st' =>
        unfold mergeDefinitions at h
        rw [hgo] at h
        cases h
        simp only [Option.some.injEq] at hmq
        subst hmq
        constructor
        · rw [docVarNames_combined]
          exact mergeDefsGo_varNames _ _ (by simp) (by simp) st' hgo
        · rw [docFragNames_combined]
          exact (phase2_fragInv qs _ ⟨by simp, by simp⟩).1

/-- C8 witness: uniqueness at a concrete input — two queries declaring the
same variable name with different bound values, so the combined document
holds a kept name and a minted one. -/
theorem combined_names_unique_witness :
    ∃ r mq, merge [rtq1, rtq2] = .ok r ∧ r.mergedQuery = some mq ∧
      (docVarNames mq.query).Nodup ∧ (docFragNames mq.query).Nodup := by
  obtain ⟨r, hr⟩ := merge_total [rtq1, rtq2]
  cases hmq : r.mergedQuery with
  | none =>
    exfalso
    revert hmq
    unfold merge at hr
    rw [if_neg (by decide)] at hr
    by_cases hdef : (phase2 ⟨[], [], [], [], uniqueNameSet [], []⟩
        [rtq1, rtq2]).definitions.isEmpty = true
    · exact absurd hdef (by decide)
    · rw [if_neg hdef] at hr
      cases hgo : mergeDefsGo ⟨uniqueNameSet [], [], [], [], []⟩
          ((phase2 ⟨[], [], [], [], uniqueNameSet [], []⟩
            [rtq1, rtq2]).definitions.map (·.2)) with
      | error e =>
        unfold mergeDefinitions at hr
        rw [hgo] at hr
        cases hr
      | ok st' =>
        unfold mergeDefinitions at hr
        rw [hgo] at hr
        cases hr
        intro hmq
        cases hmq
  | some mq =>
    exact ⟨r, mq, hr, hmq, combined_names_unique [rtq1, rtq2] r mq hr hmq⟩

theorem bool_eq_of_iff {a b : Bool} (h : a = true ↔ b = true) : a = b := by
  cases a <;> cases b <;> simp_all

theorem valueNodesAreEqual_var_left (x : String) (b : Option ValueNode) :
    valueNodesAreEqual (some (.variable x)) b = false := by
  cases b with
  | none => rfl
  | some vb => cases vb <;> rfl

theorem valueNodesAreEqual_var_right (x : String) (a : Option ValueNode) :
    valueNodesAreEqual a (some (.variable x)) = false := by
  cases a with
  | none => rfl
  | some va => cases va <;> rfl

theorem valueNodesAreEqual_symm (a b : Option ValueNode) :
    valueNodesAreEqual a b = valueNodesAreEqual b a := by
  apply bool_eq_of_iff
  cases a <;> cases b <;> try simp [valueNodesAreEqual]
  rename_i va vb
  cases va <;> cases vb <;> simp [valueNodesAreEqual, beq_iff_eq, eq_comm]

theorem valueNodesAreEqual_trans {a b c : Option ValueNode}
    (h1 : valueNodesAreEqual a b = true) (h2 : valueNodesAreEqual b c = true) :
    valueNodesAreEqual a c = true := by
  cases a <;> cases b <;> cases c <;>
    simp only [valueNodesAreEqual] at h1 h2 ⊢ <;> try simp_all
  rename_i va vb vc
  cases va <;> cases vb <;> cases vc <;> simp_all [beq_iff_eq]

theorem argumentEqual_iff (a b : Argument) :
    argumentEqual a b = true ↔
      a.name = b.name ∧
        ((∃ x, a.value = .variable x ∧ b.value = .variable x) ∨
          valueNodesAreEqual (some a.value) (some b.value) = true) := by
  obtain ⟨an, av⟩ := a
  obtain ⟨bn, bv⟩ := b
  simp only [argumentEqual, Bool.and_eq_true, Bool.or_eq_true, beq_iff_eq]
  cases av <;> cases bv <;> simp [valueNodesAreEqual, beq_iff_eq]
  exact fun _ => eq_comm

theorem argumentEqual_name {a b : Argument} (h : argumentEqual a b = true) :
    a.name = b.name :=
  ((argumentEqual_iff a b).mp h).1

theorem argumentEqual_symm {a b : Argument} (h : argumentEqual a b = true) :
    argumentEqual b a = true := by
  rw [argumentEqual_iff] at h ⊢
  obtain ⟨hn, hv⟩ := h
  refine ⟨hn.symm, ?_⟩
  rcases hv with ⟨x, hx, hy⟩ | hval
  · exact Or.inl ⟨x, hy, hx⟩
  · exact Or.inr (by rw [valueNodesAreEqual_symm]; exact hval)

theorem argumentEqual_trans {a b c : Argument} (h1 : argumentEqual a b = true)
    (h2 : argumentEqual b c = true) : argumentEqual a c = true := by
  rw [argumentEqual_iff] at h1 h2 ⊢
  obtain ⟨hn1, hv1⟩ := h1
  obtain ⟨hn2, hv2⟩ := h2
  refine ⟨hn1.trans hn2, ?_⟩
  rcases hv1 with ⟨x, hax, hbx⟩ | hval1
  · rcases hv2 with ⟨y, hby, hcy⟩ | hval2
    · rw [hby] at hbx
      cases hbx
      exact Or.inl ⟨x, hax, hcy⟩
    · rw [hbx, valueNodesAreEqual_var_left] at hval2
      cases hval2
  · rcases hv2 with ⟨y, hby, hcy⟩ | hval2
    · rw [hby, valueNodesAreEqual_var_right] at hval1
      cases hval1
    · exact Or.inr (valueNodesAreEqual_trans hval1 hval2)

theorem argsEq_iff (a b : List Argument) :
    argumentsAreEqual a b = true ↔
      a.length = b.length ∧ ∀ aa ∈ a, ∃ bb ∈ b, argumentEqual aa bb = true := by
  unfold argumentsAreEqual
  by_cases he : (a.isEmpty && b.isEmpty) = true
  · rw [if_pos he]
    rw [Bool.and_eq_true, List.isEmpty_iff, List.isEmpty_iff] at he
    obtain ⟨rfl, rfl⟩ := he
    simp
  · rw [if_neg he]
    by_cases hl : (a.length != b.length) = true
    · rw [if_pos hl]
      rw [bne_iff_ne] at hl
      simp [hl]
    · rw [if_neg hl]
      rw [bne_iff_ne, Ne, not_not] at hl
      simp only [List.all_eq_true, List.any_eq_true, hl, true_and]

theorem argsEq_symm {a b : List Argument}
    (ha : (a.map (·.name)).Nodup) (hb : (b.map (·.name)).Nodup)
    (h : argumentsAreEqual a b = true) : argumentsAreEqual b a = true := by
  rw [argsEq_iff] at h ⊢
  obtain ⟨hlen, hall⟩ := h
  refine ⟨hlen.symm, ?_⟩
  have hsub : (a.map (·.name)).toFinset ⊆ (b.map (·.name)).toFinset := by
    intro x hx
    rw [List.mem_toFinset, List.mem_map] at hx
    obtain ⟨aa, haa, rfl⟩ := hx
    obtain ⟨bb, hbb, heq⟩ := hall aa haa
    rw [List.mem_toFinset, List.mem_map]
    exact ⟨bb, hbb, (argumentEqual_name heq).symm⟩
  have hcard : (b.map (·.name)).toFinset.card ≤ (a.map (·.name)).toFinset.card := by
    rw [List.toFinset_card_of_nodup ha, List.toFinset_card_of_nodup hb]
    simp [hlen]
  have heqset := Finset.eq_of_subset_of_card_le hsub hcard
  intro bb hbb
  have hxmem : bb.name ∈ (a.map (·.name)).toFinset := by
    rw [heqset, List.mem_toFinset, List.mem_map]
    exact ⟨bb, hbb, rfl⟩
  rw [List.mem_toFinset, List.mem_map] at hxmem
  obtain ⟨aa, haa, hname⟩ := hxmem
  obtain ⟨bb', hbb', heq'⟩ := hall aa haa
  have hbname : bb'.name = bb.name := (argumentEqual_name heq').symm.trans hname
  have : bb' = bb := List.inj_on_of_nodup_map hb hbb' hbb hbname
  subst this
  exact ⟨aa, haa, argumentEqual_symm heq'⟩

theorem argsEq_trans {a b c : List Argument}
    (h1 : argumentsAreEqual a b = true) (h2 : argumentsAreEqual b c = true) :
    argumentsAreEqual a c = true := by
  rw [argsEq_iff] at h1 h2 ⊢
  refine ⟨h1.1.trans h2.1, ?_⟩
  intro aa haa
  obtain ⟨bb, hbb, e1⟩ := h1.2 aa haa
  obtain ⟨cc, hcc, e2⟩ := h2.2 bb hbb
  exact ⟨cc, hcc, argumentEqual_trans e1 e2⟩

theorem outKey_eq_accessors (s : Selection) :
    outKey s = s.aliasOf.getD s.nameOf := by
  cases s <;> rfl

theorem accEq_refl (s : Selection) : accEq s s := ⟨rfl, rfl, rfl, rfl⟩

theorem accEq_trans {a b c : Selection} (h1 : accEq a b) (h2 : accEq b c) :
    accEq a c :=
  ⟨h1.1.trans h2.1, h1.2.1.trans h2.2.1, h1.2.2.1.trans h2.2.2.1,
    h1.2.2.2.trans h2.2.2.2⟩

theorem accEq_outKey {a b : Selection} (h : accEq a b) :
    outKey a = outKey b := by
  rw [outKey_eq_accessors, outKey_eq_accessors, h.1, h.2.1]

theorem withSelectionSet_accEq (s : Selection) (x : Option (List Selection)) :
    accEq (withSelectionSet s x) s := by
  cases s <;> exact ⟨rfl, rfl, rfl, rfl⟩

theorem findIdx?_some_spec (p : Selection → Bool) (l : List Selection) :
    ∀ s i : Nat, List.findIdx? p l s = some i →
      ∃ j, ∃ h : j < l.length, i = s + j ∧ p (l.get ⟨j, h⟩) = true := by
  induction l with
  | nil => intro s i h; simp [List.findIdx?] at h
  | cons x xs ih =>
    intro s i h
    rw [List.findIdx?_cons] at h
    by_cases hp : p x = true
    · rw [if_pos hp] at h
      cases h
      exact ⟨0, by simp, by simp, hp⟩
    · rw [if_neg hp] at h
      obtain ⟨j, hj, hi, hpj⟩ := ih (s + 1) i h
      exact ⟨j + 1, Nat.succ_lt_succ hj, by omega, hpj⟩

theorem findIdx?_spec (p : Selection → Bool) (l : List Selection) (i : Nat)
    (h : List.findIdx? p l = some i) :
    ∃ hlt : i < l.length, p (l.get ⟨i, hlt⟩) = true := by
  obtain ⟨j, hj, hij, hpj⟩ := findIdx?_some_spec p l 0 i h
  rw [Nat.zero_add] at hij
  subst hij
  exact ⟨hj, hpj⟩

theorem map_outKey_set (l : List Selection) (i : Nat) (e : Selection)
    (h : i < l.length) (hk : outKey e = outKey (l.get ⟨i, h⟩)) :
    (l.set i e).map outKey = l.map outKey := by
  apply List.ext_getElem?_iff.mpr
  intro j
  rw [List.getElem?_map, List.getElem?_map, List.getElem?_set]
  by_cases hij : i = j
  · subst hij
    rw [if_pos rfl, if_pos h, List.getElem?_eq_getElem h]
    simp only [Option.map_some', hk]
    rfl
  · rw [if_neg hij]

theorem get_append_singleton (l : List Selection) (x : Selection)
    (h : l.length < (l ++ [x]).length) : (l ++ [x]).get ⟨l.length, h⟩ = x := by
  simp [List.getElem_concat_length]

theorem get_append_left (l : List Selection) (x : Selection) (i : Nat)
    (h : i < l.length) (h' : i < (l ++ [x]).length) :
    (l ++ [x]).get ⟨i, h'⟩ = l.get ⟨i, h⟩ := by
  simp [List.getElem_append_left, h]

/-- One step of the `mergeFields` fold never shortens the combined list and
only rewrites selection sets of entries already present. -/
theorem mergeFieldStep_preserves (existing : List Selection)
    (alloc : NameAlloc) (s : Selection) :
    existing.length ≤ (mergeFieldStep existing alloc s).1.length ∧
    ∀ i, ∀ h : i < existing.length,
      ∃ h' : i < (mergeFieldStep existing alloc s).1.length,
        accEq ((mergeFieldStep existing alloc s).1.get ⟨i, h'⟩)
          (existing.get ⟨i, h⟩) := by
  have happend : ∀ (x : Selection),
      existing.length ≤ (existing ++ [x]).length ∧
      ∀ i, ∀ h : i < existing.length,
        ∃ h' : i < (existing ++ [x]).length,
          accEq ((existing ++ [x]).get ⟨i, h'⟩) (existing.get ⟨i, h⟩) := by
    intro x
    refine ⟨by simp, ?_⟩
    intro i h
    refine ⟨by simp; omega, ?_⟩
    rw [get_append_left existing _ i h]
    exact accEq_refl _
  have hid : existing.length ≤ existing.length ∧
      ∀ i, ∀ h : i < existing.length,
        ∃ h' : i < existing.length,
          accEq (existing.get ⟨i, h'⟩) (existing.get ⟨i, h⟩) :=
    ⟨le_refl _, fun i h => ⟨h, accEq_refl _⟩⟩
  cases s with
  | fragmentSpread fn fd =>
    have h1 : (mergeFieldStep existing alloc (.fragmentSpread fn fd)).1 =
        existing ++ [.fragmentSpread fn fd] := by
      simp only [mergeFieldStep]
    rw [h1]
    exact happend _
  | inlineFragment tc fd fss =>
    have h1 : (mergeFieldStep existing alloc (.inlineFragment tc fd fss)).1 =
        existing ++ [.inlineFragment tc fd fss] := by
      simp only [mergeFieldStep]
    rw [h1]
    exact happend _
  | field al n args dirs ss =>
    cases hfind : List.findIdx?
        (fun ef => fieldsCanBeMerged ef (.field al n args dirs ss)) existing with
    | none =>
      have h1 : (mergeFieldStep existing alloc (.field al n args dirs ss)).1 =
          existing ++ [.field (if ((alloc.next (al.getD n)).1 == n) = true
              then none else some (alloc.next (al.getD n)).1) n args dirs ss] := by
        simp only [mergeFieldStep, hfind]
      rw [h1]
      exact happend _
    | some i0 =>
      obtain ⟨hlt, hp⟩ := findIdx?_spec _ existing i0 hfind
      cases ss with
      | none =>
        have h1 : (mergeFieldStep existing alloc
            (.field al n args dirs none)).1 = existing := by
          simp only [mergeFieldStep, hfind]
          cases hss : selectionSetOf
              (existing.getD i0 (.field none "" [] [] none)) with
          | none => simp only [hss]
          | some eSels => simp only [hss]
        rw [h1]
        exact hid
      | some nSels =>
        cases hss : selectionSetOf
            (existing.getD i0 (.field none "" [] [] none)) with
        | none =>
          have h1 : (mergeFieldStep existing alloc
              (.field al n args dirs (some nSels))).1 = existing := by
            simp only [mergeFieldStep, hfind, hss]
          rw [h1]
          exact hid
        | some eSels =>
          have h1 : (mergeFieldStep existing alloc
              (.field al n args dirs (some nSels))).1 =
              existing.set i0 (withSelectionSet
                (existing.getD i0 (.field none "" [] [] none))
                (some (mergeFieldsGo eSels (uniqueNameSet (eSels.map outKey))
                  nSels).1)) := by
            simp only [mergeFieldStep, hfind, hss]
          rw [h1]
          refine ⟨by simp, ?_⟩
          intro i h
          refine ⟨by simp [h], ?_⟩
          by_cases hij : i0 = i
          · subst hij
            rw [List.get_set_eq]
            exact accEq_trans (withSelectionSet_accEq _ _)
              (by rw [List.getD_eq_get _ _ hlt]; exact accEq_refl _)
          · rw [List.get_set_ne hij]
            exact accEq_refl _

/-- One step of the fold keeps the output keys of the combined list pairwise
distinct and registered in the allocator, provided the new selection is a
field. -/
theorem mergeFieldStep_keys (existing : List Selection) (alloc : NameAlloc)
    (s : Selection) (hf : s.isField = true)
    (hnd : (existing.map outKey).Nodup)
    (hsub : ∀ k ∈ existing.map outKey, k ∈ alloc.used) :
    ((mergeFieldStep existing alloc s).1.map outKey).Nodup ∧
    ∀ k ∈ (mergeFieldStep existing alloc s).1.map outKey,
      k ∈ (mergeFieldStep existing alloc s).2.1.used := by
  cases s with
  | fragmentSpread fn fd => simp [Selection.isField] at hf
  | inlineFragment tc fd fss => simp [Selection.isField] at hf
  | field al n args dirs ss =>
    cases hfind : List.findIdx?
        (fun ef => fieldsCanBeMerged ef (.field al n args dirs ss)) existing with
    | none =>
      have h1 : (mergeFieldStep existing alloc (.field al n args dirs ss)).1 =
          existing ++ [.field (if ((alloc.next (al.getD n)).1 == n) = true
              then none else some (alloc.next (al.getD n)).1) n args dirs ss] := by
        simp only [mergeFieldStep, hfind]
      have h2 : (mergeFieldStep existing alloc (.field al n args dirs ss)).2.1 =
          (alloc.next (al.getD n)).2 := by
        simp only [mergeFieldStep, hfind]
      have hfresh := NameAlloc.next_fresh alloc (al.getD n)
      have hused := NameAlloc.next_used_eq alloc (al.getD n)
      have hkey : outKey (Selection.field
          (if ((alloc.next (al.getD n)).1 == n) = true then none
           else some (alloc.next (al.getD n)).1) n args dirs ss) =
          (alloc.next (al.getD n)).1 := by
        by_cases hb : ((alloc.next (al.getD n)).1 == n) = true
        · rw [if_pos hb]
          exact (beq_iff_eq.mp hb).symm
        · rw [if_neg hb]
          rfl
      rw [h1, h2]
      constructor
      · rw [List.map_append]
        apply List.Nodup.append hnd (by simp)
        intro k hk hk'
        simp only [List.map_cons, List.map_nil, List.mem_singleton] at hk'
        subst hk'
        rw [hkey] at hk
        exact hfresh (hsub _ hk)
      · intro k hk
        rw [List.map_append] at hk
        rw [hused]
        rcases List.mem_append.mp hk with hmem | hmem
        · exact List.mem_cons_of_mem _ (hsub _ hmem)
        · simp only [List.map_cons, List.map_nil, List.mem_singleton] at hmem
          rw [hmem, hkey]
          exact List.mem_cons_self _ _
    | some i0 =>
      obtain ⟨hlt, hp⟩ := findIdx?_spec _ existing i0 hfind
      cases ss with
      | none =>
        have h1 : (mergeFieldStep existing alloc
            (.field al n args dirs none)).1 = existing := by
          simp only [mergeFieldStep, hfind]
          cases hss : selectionSetOf
              (existing.getD i0 (.field none "" [] [] none)) with
          | none => simp only [hss]
          | some eSels => simp only [hss]
        have h2 : (mergeFieldStep existing alloc
            (.field al n args dirs none)).2.1 = alloc := by
          simp only [mergeFieldStep, hfind]
          cases hss : selectionSetOf
              (existing.getD i0 (.field none "" [] [] none)) with
          | none => simp only [hss]
          | some eSels => simp only [hss]
        rw [h1, h2]
        exact ⟨hnd, hsub⟩
      | some nSels =>
        cases hss : selectionSetOf
            (existing.getD i0 (.field none "" [] [] none)) with
        | none =>
          have h1 : (mergeFieldStep existing alloc
              (.field al n args dirs (some nSels))).1 = existing := by
            simp only [mergeFieldStep, hfind, hss]
          have h2 : (mergeFieldStep existing alloc
              (.field al n args dirs (some nSels))).2.1 = alloc := by
            simp only [mergeFieldStep, hfind, hss]
          rw [h1, h2]
          exact ⟨hnd, hsub⟩
        | some eSels =>
          have h1 : (mergeFieldStep existing alloc
              (.field al n args dirs (some nSels))).1 =
              existing.set i0 (withSelectionSet
                (existing.getD i0 (.field none "" [] [] none))
                (some (mergeFieldsGo eSels (uniqueNameSet (eSels.map outKey))
                  nSels).1)) := by
            simp only [mergeFieldStep, hfind, hss]
          have h2 : (mergeFieldStep existing alloc
              (.field al n args dirs (some nSels))).2.1 = alloc := by
            simp only [mergeFieldStep, hfind, hss]
          rw [h1, h2]
          have hkeys : ((existing.set i0 (withSelectionSet
              (existing.getD i0 (.field none "" [] [] none))
              (some (mergeFieldsGo eSels (uniqueNameSet (eSels.map outKey))
                nSels).1))).map outKey) = existing.map outKey := by
            apply map_outKey_set existing i0 _ hlt
            rw [accEq_outKey (withSelectionSet_accEq _ _),
              List.getD_eq_get _ _ hlt]
          rw [hkeys]
          exact ⟨hnd, hsub⟩

/-- The arguments of every entry after one fold step come from an entry
already present or from the folded selection itself. -/
theorem mergeFieldStep_provenance (existing : List Selection)
    (alloc : NameAlloc) (s : Selection) :
    ∀ e' ∈ (mergeFieldStep existing alloc s).1,
      (∃ e ∈ existing, e'.argsOf = e.argsOf) ∨ e'.argsOf = s.argsOf := by
  have happend : ∀ (x : Selection), x.argsOf = s.argsOf →
      ∀ e' ∈ existing ++ [x],
        (∃ e ∈ existing, e'.argsOf = e.argsOf) ∨ e'.argsOf = s.argsOf := by
    intro x hx e' he'
    rcases List.mem_append.mp he' with hmem | hmem
    · exact Or.inl ⟨e', hmem, rfl⟩
    · rw [List.mem_singleton.mp hmem, hx]
      exact Or.inr rfl
  cases s with
  | fragmentSpread fn fd =>
    have h1 : (mergeFieldStep existing alloc (.fragmentSpread fn fd)).1 =
        existing ++ [.fragmentSpread fn fd] := by
      simp only [mergeFieldStep]
    rw [h1]
    exact happend _ rfl
  | inlineFragment tc fd fss =>
    have h1 : (mergeFieldStep existing alloc (.inlineFragment tc fd fss)).1 =
        existing ++ [.inlineFragment tc fd fss] := by
      simp only [mergeFieldStep]
    rw [h1]
    exact happend _ rfl
  | field al n args dirs ss =>
    cases hfind : List.findIdx?
        (fun ef => fieldsCanBeMerged ef (.field al n args dirs ss)) existing with
    | none =>
      have h1 : (mergeFieldStep existing alloc (.field al n args dirs ss)).1 =
          existing ++ [.field (if ((alloc.next (al.getD n)).1 == n) = true
              then none else some (alloc.next (al.getD n)).1) n args dirs ss] := by
        simp only [mergeFieldStep, hfind]
      rw [h1]
      exact happend _ rfl
    | some i0 =>
      obtain ⟨hlt, hp⟩ := findIdx?_spec _ existing i0 hfind
      cases ss with
      | none =>
        have h1 : (mergeFieldStep existing alloc
            (.field al n args dirs none)).1 = existing := by
          simp only [mergeFieldStep, hfind]
          cases hss : selectionSetOf
              (existing.getD i0 (.field none "" [] [] none)) with
          | none => simp only [hss]
          | some eSels => simp only [hss]
        rw [h1]
        exact fun e' he' => Or.inl ⟨e', he', rfl⟩
      | some nSels =>
        cases hss : selectionSetOf
            (existing.getD i0 (.field none "" [] [] none)) with
        | none =>
          have h1 : (mergeFieldStep existing alloc
              (.field al n args dirs (some nSels))).1 = existing := by
            simp only [mergeFieldStep, hfind, hss]
          rw [h1]
          exact fun e' he' => Or.inl ⟨e', he', rfl⟩
        | some eSels =>
          have h1 : (mergeFieldStep existing alloc
              (.field al n args dirs (some nSels))).1 =
              existing.set i0 (withSelectionSet
                (existing.getD i0 (.field none "" [] [] none))
                (some (mergeFieldsGo eSels (uniqueNameSet (eSels.map outKey))
                  nSels).1)) := by
            simp only [mergeFieldStep, hfind, hss]
          rw [h1]
          intro e' he'
          rcases List.mem_or_eq_of_mem_set he' with hmem | hmem
          · exact Or.inl ⟨e', hmem, rfl⟩
          · refine Or.inl ⟨existing.getD i0 (.field none "" [] [] none),
              ?_, ?_⟩
            · rw [List.getD_eq_get _ _ hlt]
              exact List.get_mem _ _ _
            · rw [hmem]
              exact (withSelectionSet_accEq _ _).2.2.1

/-- Folding one field leaves an entry in the combined list carrying the
field's name: a freshly appended entry with the very same arguments, or an
existing entry whose arguments compare equal under `argumentsAreEqual`. -/
theorem mergeFieldStep_fold (existing : List Selection) (alloc : NameAlloc)
    (al : Option String) (n : String) (args : List Argument)
    (dirs : List String) (ss : Option (List Selection)) :
    ∃ j, ∃ h : j <
        (mergeFieldStep existing alloc (.field al n args dirs ss)).1.length,
      (((mergeFieldStep existing alloc (.field al n args dirs ss)).1.get
          ⟨j, h⟩).isField = true) ∧
      (((mergeFieldStep existing alloc (.field al n args dirs ss)).1.get
          ⟨j, h⟩).nameOf = n) ∧
      (argumentsAreEqual (((mergeFieldStep existing alloc
            (.field al n args dirs ss)).1.get ⟨j, h⟩).argsOf) args = true ∨
        ((((mergeFieldStep existing alloc (.field al n args dirs ss)).1.get
            ⟨j, h⟩).argsOf = args) ∧ existing.length ≤ j)) := by
  cases hfind : List.findIdx?
      (fun ef => fieldsCanBeMerged ef (.field al n args dirs ss)) existing with
  | none =>
    have h1 : (mergeFieldStep existing alloc (.field al n args dirs ss)).1 =
        existing ++ [.field (if ((alloc.next (al.getD n)).1 == n) = true
            then none else some (alloc.next (al.getD n)).1) n args dirs ss] := by
      simp only [mergeFieldStep, hfind]
    rw [h1]
    refine ⟨existing.length, by simp, ?_⟩
    rw [get_append_singleton]
    exact ⟨rfl, rfl, Or.inr ⟨rfl, le_refl _⟩⟩
  | some i0 =>
    obtain ⟨hlt, hp⟩ := findIdx?_spec _ existing i0 hfind
    have hef := hp
    cases hefc : existing.get ⟨i0, hlt⟩ with
    | fragmentSpread fn fd =>
      rw [hefc] at hef
      simp [fieldsCanBeMerged] at hef
    | inlineFragment tc fd fss =>
      rw [hefc] at hef
      simp [fieldsCanBeMerged] at hef
    | field eal ename eargs edirs ess =>
      rw [hefc] at hef
      simp only [fieldsCanBeMerged, Bool.and_eq_true, beq_iff_eq] at hef
      obtain ⟨⟨⟨⟨⟨hn, _⟩, _⟩, hargs⟩, _⟩, _⟩ := hef
      cases ss with
      | none =>
        have h1 : (mergeFieldStep existing alloc
            (.field al n args dirs none)).1 = existing := by
          simp only [mergeFieldStep, hfind]
          cases hss : selectionSetOf
              (existing.getD i0 (.field none "" [] [] none)) with
          | none => simp only [hss]
          | some eSels => simp only [hss]
        rw [h1]
        refine ⟨i0, hlt, ?_⟩
        rw [hefc]
        exact ⟨rfl, hn, Or.inl hargs⟩
      | some nSels =>
        cases hss : selectionSetOf
            (existing.getD i0 (.field none "" [] [] none)) with
        | none =>
          have h1 : (mergeFieldStep existing alloc
              (.field al n args dirs (some nSels))).1 = existing := by
            simp only [mergeFieldStep, hfind, hss]
          rw [h1]
          refine ⟨i0, hlt, ?_⟩
          rw [hefc]
          exact ⟨rfl, hn, Or.inl hargs⟩
        | some eSels =>
          have h1 : (mergeFieldStep existing alloc
              (.field al n args dirs (some nSels))).1 =
              existing.set i0 (withSelectionSet
                (existing.getD i0 (.field none "" [] [] none))
                (some (mergeFieldsGo eSels (uniqueNameSet (eSels.map outKey))
                  nSels).1)) := by
            simp only [mergeFieldStep, hfind, hss]
          rw [h1]
          refine ⟨i0, by simp [hlt], ?_⟩
          rw [List.get_set_eq, List.getD_eq_get _ _ hlt, hefc]
          exact ⟨rfl, hn, Or.inl hargs⟩

/-- The `mergeFields` fold never shortens the combined list and only
rewrites selection sets of entries already present. -/
theorem mergeFieldsGo_preserves (l : List Selection) :
    ∀ (existing : List Selection) (alloc : NameAlloc),
      existing.length ≤ (mergeFieldsGo existing alloc l).1.length ∧
      ∀ i, ∀ h : i < existing.length,
        ∃ h' : i < (mergeFieldsGo existing alloc l).1.length,
          accEq ((mergeFieldsGo existing alloc l).1.get ⟨i, h'⟩)
            (existing.get ⟨i, h⟩) := by
  induction l with
  | nil =>
    intro existing alloc
    have h1 : (mergeFieldsGo existing alloc []).1 = existing := by
      simp only [mergeFieldsGo]
    rw [h1]
    exact ⟨le_refl _, fun i h => ⟨h, accEq_refl _⟩⟩
  | cons s rest ih =>
    intro existing alloc
    have h1 : (mergeFieldsGo existing alloc (s :: rest)).1 =
        (mergeFieldsGo (mergeFieldStep existing alloc s).1
          (mergeFieldStep existing alloc s).2.1 rest).1 := by
      simp only [mergeFieldsGo]
    rw [h1]
    obtain ⟨hlen1, hpres1⟩ := mergeFieldStep_preserves existing alloc s
    obtain ⟨hlen2, hpres2⟩ := ih (mergeFieldStep existing alloc s).1
      (mergeFieldStep existing alloc s).2.1
    refine ⟨le_trans hlen1 hlen2, ?_⟩
    intro i h
    obtain ⟨h', hacc1⟩ := hpres1 i h
    obtain ⟨h'', hacc2⟩ := hpres2 i h'
    exact ⟨h'', accEq_trans hacc2 hacc1⟩

/-- The `mergeFields` fold keeps output keys pairwise distinct when the
existing keys are distinct and registered in the allocator. -/
theorem mergeFieldsGo_keys (l : List Selection) :
    ∀ (existing : List Selection) (alloc : NameAlloc),
      l.all Selection.isField = true →
      (existing.map outKey).Nodup →
      (∀ k ∈ existing.map outKey, k ∈ alloc.used) →
      ((mergeFieldsGo existing alloc l).1.map outKey).Nodup := by
  induction l with
  | nil =>
    intro existing alloc _ hnd _
    have h1 : (mergeFieldsGo existing alloc []).1 = existing := by
      simp only [mergeFieldsGo]
    rw [h1]
    exact hnd
  | cons s rest ih =>
    intro existing alloc hall hnd hsub
    rw [List.all_cons, Bool.and_eq_true] at hall
    have h1 : (mergeFieldsGo existing alloc (s :: rest)).1 =
        (mergeFieldsGo (mergeFieldStep existing alloc s).1
          (mergeFieldStep existing alloc s).2.1 rest).1 := by
      simp only [mergeFieldsGo]
    rw [h1]
    obtain ⟨hnd', hsub'⟩ := mergeFieldStep_keys existing alloc s hall.1 hnd hsub
    exact ih _ _ hall.2 hnd' hsub'

/-- The arguments of every entry of the folded list come from an entry
already present or from one of the folded selections. -/
theorem mergeFieldsGo_provenance (l : List Selection) :
    ∀ (existing : List Selection) (alloc : NameAlloc),
      ∀ e' ∈ (mergeFieldsGo existing alloc l).1,
        (∃ e ∈ existing, e'.argsOf = e.argsOf) ∨
        (∃ s ∈ l, e'.argsOf = s.argsOf) := by
  induction l with
  | nil =>
    intro existing alloc e' he'
    have h1 : (mergeFieldsGo existing alloc []).1 = existing := by
      simp only [mergeFieldsGo]
    rw [h1] at he'
    exact Or.inl ⟨e', he', rfl⟩
  | cons s rest ih =>
    intro existing alloc e' he'
    have h1 : (mergeFieldsGo existing alloc (s :: rest)).1 =
        (mergeFieldsGo (mergeFieldStep existing alloc s).1
          (mergeFieldStep existing alloc s).2.1 rest).1 := by
      simp only [mergeFieldsGo]
    rw [h1] at he'
    rcases ih _ _ e' he' with ⟨e, hmem, heq⟩ | ⟨s', hmem, heq⟩
    · rcases mergeFieldStep_provenance existing alloc s e hmem with
        ⟨e2, hm2, heq2⟩ | heq2
      · exact Or.inl ⟨e2, hm2, heq.trans heq2⟩
      · exact Or.inr ⟨s, List.mem_cons_self _ _, heq.trans heq2⟩
    · exact Or.inr ⟨s', List.mem_cons_of_mem _ hmem, heq⟩

/-- Folding a list containing a field leaves an entry carrying the field's
name in the combined list: either appended past the original entries with
the very same arguments, or an existing entry whose arguments compare equal
under `argumentsAreEqual`. -/
theorem mergeFieldsGo_fold (l : List Selection) :
    ∀ (existing : List Selection) (alloc : NameAlloc)
      (al : Option String) (n : String) (args : List Argument)
      (dirs : List String) (ss : Option (List Selection)),
      (Selection.field al n args dirs ss) ∈ l →
      ∃ j, ∃ h : j < (mergeFieldsGo existing alloc l).1.length,
        (((mergeFieldsGo existing alloc l).1.get ⟨j, h⟩).isField = true) ∧
        (((mergeFieldsGo existing alloc l).1.get ⟨j, h⟩).nameOf = n) ∧
        (argumentsAreEqual
            (((mergeFieldsGo existing alloc l).1.get ⟨j, h⟩).argsOf) args =
              true ∨
          ((((mergeFieldsGo existing alloc l).1.get ⟨j, h⟩).argsOf = args) ∧
            existing.length ≤ j)) := by
  induction l with
  | nil => intro existing alloc al n args dirs ss hmem; cases hmem
  | cons s rest ih =>
    intro existing alloc al n args dirs ss hmem
    have h1 : (mergeFieldsGo existing alloc (s :: rest)).1 =
        (mergeFieldsGo (mergeFieldStep existing alloc s).1
          (mergeFieldStep existing alloc s).2.1 rest).1 := by
      simp only [mergeFieldsGo]
    rw [h1]
    rcases List.mem_cons.mp hmem with heq | hmem'
    · subst heq
      obtain ⟨j, hj, hfld, hnm, hrel⟩ :=
        mergeFieldStep_fold existing alloc al n args dirs ss
      obtain ⟨hlen2, hpres2⟩ := mergeFieldsGo_preserves rest
        (mergeFieldStep existing alloc (.field al n args dirs ss)).1
        (mergeFieldStep existing alloc (.field al n args dirs ss)).2.1
      obtain ⟨h', hacc⟩ := hpres2 j hj
      refine ⟨j, h', hacc.2.2.2.trans hfld, hacc.2.1.trans hnm, ?_⟩
      rcases hrel with hae | ⟨heq2, hge⟩
      · exact Or.inl (by rw [hacc.2.2.1]; exact hae)
      · exact Or.inr ⟨hacc.2.2.1.trans heq2, hge⟩
    · obtain ⟨j, hj, hfld, hnm, hrel⟩ := ih
        (mergeFieldStep existing alloc s).1
        (mergeFieldStep existing alloc s).2.1 al n args dirs ss hmem'
      refine ⟨j, hj, hfld, hnm, ?_⟩
      rcases hrel with hae | ⟨heq2, hge⟩
      · exact Or.inl hae
      · exact Or.inr ⟨heq2,
          le_trans (mergeFieldStep_preserves existing alloc s).1 hge⟩

/-! ### Transporting fields through the renaming passes (for C7) -/

theorem renameVarsSels_map (m : List (String × String)) (l : List Selection) :
    renameVarsSels m l = l.map (renameVarsSel m) := by
  induction l with
  | nil => rfl
  | cons s rest ih => rw [renameVarsSels, List.map_cons, ih]

theorem renameFragsSels_map (m : List (String × String)) (l : List Selection) :
    renameFragsSels m l = l.map (renameFragsSel m) := by
  induction l with
  | nil => rfl
  | cons s rest ih => rw [renameFragsSels, List.map_cons, ih]

theorem renameArg_varFree (m : List (String × String)) (a : Argument)
    (h : a.value.isVariable = false) : renameArg m a = a := by
  obtain ⟨an, av⟩ := a
  cases av <;> first
    | rfl
    | (simp [ValueNode.isVariable] at h)

theorem renameArgs_varFree (m : List (String × String)) (args : List Argument)
    (h : varFreeArgs args = true) : args.map (renameArg m) = args := by
  induction args with
  | nil => rfl
  | cons a rest ih =>
    rw [varFreeArgs, List.all_cons, Bool.and_eq_true] at h
    rw [List.map_cons, renameArg_varFree m a (by simpa using h.1), ih h.2]

theorem mem_renameFragments (l : List Selection) (m : List (String × String))
    (al : Option String) (n : String) (args : List Argument)
    (dirs : List String) (ss : Option (List Selection))
    (h : Selection.field al n args dirs ss ∈ l) :
    ∃ ss', Selection.field al n args dirs ss' ∈ renameFragments l m := by
  unfold renameFragments
  by_cases he : m.isEmpty = true
  · rw [if_pos he]
    exact ⟨ss, h⟩
  · rw [if_neg he, renameFragsSels_map]
    cases ss with
    | none =>
      refine ⟨none, ?_⟩
      have h2 := List.mem_map_of_mem (renameFragsSel m) h
      simpa only [renameFragsSel] using h2
    | some l2 =>
      refine ⟨some (renameFragsSels m l2), ?_⟩
      have h2 := List.mem_map_of_mem (renameFragsSel m) h
      simpa only [renameFragsSel] using h2

theorem mem_renameVariables (l : List Selection) (m : List (String × String))
    (al : Option String) (n : String) (args : List Argument)
    (dirs : List String) (ss : Option (List Selection))
    (hvf : varFreeArgs args = true)
    (h : Selection.field al n args dirs ss ∈ l) :
    ∃ ss', Selection.field al n args dirs ss' ∈ renameVariables l m := by
  unfold renameVariables
  by_cases he : m.isEmpty = true
  · rw [if_pos he]
    exact ⟨ss, h⟩
  · rw [if_neg he, renameVarsSels_map]
    cases ss with
    | none =>
      refine ⟨none, ?_⟩
      have h2 := List.mem_map_of_mem (renameVarsSel m) h
      simp only [renameVarsSel, renameArgs_varFree m args hvf] at h2
      exact h2
    | some l2 =>
      refine ⟨some (renameVarsSels m l2), ?_⟩
      have h2 := List.mem_map_of_mem (renameVarsSel m) h
      simp only [renameVarsSel, renameArgs_varFree m args hvf] at h2
      exact h2

theorem argNames_renameArg (m : List (String × String)) (a : Argument) :
    (renameArg m a).name = a.name := by
  obtain ⟨an, av⟩ := a
  cases av <;> rfl

theorem argNames_renameVarsSel (m : List (String × String)) (s : Selection) :
    ((renameVarsSel m s).argsOf.map fun a => a.name) =
      s.argsOf.map fun a => a.name := by
  cases s with
  | field al n args dirs ss =>
    simp only [renameVarsSel, Selection.argsOf, List.map_map]
    exact List.map_congr_left fun a _ => argNames_renameArg m a
  | fragmentSpread n d => rfl
  | inlineFragment tc d ss => rfl

theorem argsOf_renameFragsSel (m : List (String × String)) (s : Selection) :
    (renameFragsSel m s).argsOf = s.argsOf := by
  cases s with
  | field al n args dirs ss => rfl
  | fragmentSpread n d =>
    simp only [renameFragsSel]
    cases m.find? (fun p => p.1 == n) <;> rfl
  | inlineFragment tc d ss => rfl

theorem argNames_renameFragments (l : List Selection)
    (m : List (String × String)) :
    ∀ t ∈ renameFragments l m, ∃ s ∈ l, t.argsOf = s.argsOf := by
  intro t ht
  unfold renameFragments at ht
  by_cases he : m.isEmpty = true
  · rw [if_pos he] at ht
    exact ⟨t, ht, rfl⟩
  · rw [if_neg he, renameFragsSels_map] at ht
    obtain ⟨s, hs, rfl⟩ := List.mem_map.mp ht
    exact ⟨s, hs, argsOf_renameFragsSel m s⟩

/-- Argument-name provenance: every selection of a renamed selection set
reads its argument names off some selection of the original set. -/
theorem argNames_renamed (l : List Selection)
    (m1 m2 : List (String × String)) :
    ∀ s' ∈ renameVariables (renameFragments l m1) m2, ∃ s ∈ l,
      (s'.argsOf.map fun a => a.name) = s.argsOf.map fun a => a.name := by
  intro s' hs'
  unfold renameVariables at hs'
  by_cases he2 : m2.isEmpty = true
  · rw [if_pos he2] at hs'
    obtain ⟨s, hs, heq⟩ := argNames_renameFragments l m1 s' hs'
    exact ⟨s, hs, by rw [heq]⟩
  · rw [if_neg he2, renameVarsSels_map] at hs'
    obtain ⟨t, ht, rfl⟩ := List.mem_map.mp hs'
    obtain ⟨s, hs, heq⟩ := argNames_renameFragments l m1 t ht
    exact ⟨s, hs, (argNames_renameVarsSel m2 t).trans (by rw [heq])⟩

/-! ### Two-query characterization of `merge` (for C7) -/

/-- One mergeable query appends exactly one definition (its single query
operation, fragment spreads renamed) to the phase-2 state. -/
theorem phase2Step_defs (st : Phase2State) (q : Query)
    (hm : mergeable q.query = true) :
    ∃ m : List (String × String),
      (phase2Step st q).definitions = st.definitions ++
        [(q, ⟨{ theOp q.query with
          selectionSet := renameFragments (theOp q.query).selectionSet m },
          q.varValues⟩)] := by
  refine ⟨(addFragments st [] (fragmentDefs q.query)).2, ?_⟩
  unfold phase2Step
  rw [if_pos hm]
  simp only [(addFragments_definitions _ _ _).1]
  rfl

theorem phase2_two (q1 q2 : Query) (hm1 : mergeable q1.query = true)
    (hm2 : mergeable q2.query = true) :
    ∃ m1 m2 : List (String × String),
      (phase2 ⟨[], [], [], [], uniqueNameSet [], []⟩ [q1, q2]).definitions =
        [(q1, ⟨{ theOp q1.query with
           selectionSet := renameFragments (theOp q1.query).selectionSet m1 },
           q1.varValues⟩),
         (q2, ⟨{ theOp q2.query with
           selectionSet := renameFragments (theOp q2.query).selectionSet m2 },
           q2.varValues⟩)] := by
  obtain ⟨m1, h1⟩ :=
    phase2Step_defs ⟨[], [], [], [], uniqueNameSet [], []⟩ q1 hm1
  obtain ⟨m2, h2⟩ :=
    phase2Step_defs (phase2Step ⟨[], [], [], [], uniqueNameSet [], []⟩ q1) q2 hm2
  refine ⟨m1, m2, ?_⟩
  rw [phase2, phase2, phase2, h2, h1]
  rfl

/-- One accepted definition folds its renamed selections into the running
combined selection list. -/
theorem mergeDefsGo_cons (st : MergeDefsState) (d : DefInput)
    (rest : List DefInput)
    (ha : d.query.selectionSet.all Selection.isField = true) :
    ∃ m : List (String × String), ∃ st1 : MergeDefsState,
      mergeDefsGo st (d :: rest) = mergeDefsGo st1 rest ∧
      st1.selections = (mergeFields st.selections
        (renameVariables d.query.selectionSet m)).1 := by
  refine ⟨(processVariables ⟨st.alloc, st.variableDefinitions, st.varValues, []⟩
      d.varValues d.query.variableDefinitions).mapping,
    ⟨(processVariables ⟨st.alloc, st.variableDefinitions, st.varValues, []⟩
        d.varValues d.query.variableDefinitions).alloc,
      (processVariables ⟨st.alloc, st.variableDefinitions, st.varValues, []⟩
        d.varValues d.query.variableDefinitions).variableDefinitions,
      (processVariables ⟨st.alloc, st.variableDefinitions, st.varValues, []⟩
        d.varValues d.query.variableDefinitions).varValues,
      (mergeFields st.selections (renameVariables d.query.selectionSet
        (processVariables ⟨st.alloc, st.variableDefinitions, st.varValues, []⟩
          d.varValues d.query.variableDefinitions).mapping)).1,
      st.extractResults ++ [(mergeFields st.selections (renameVariables
        d.query.selectionSet (processVariables ⟨st.alloc,
          st.variableDefinitions, st.varValues, []⟩ d.varValues
            d.query.variableDefinitions).mapping)).2]⟩, ?_, rfl⟩
  have hc : (renameVariables d.query.selectionSet
      (processVariables ⟨st.alloc, st.variableDefinitions, st.varValues, []⟩
        d.varValues d.query.variableDefinitions).mapping).all
      Selection.isField = true := by
    rw [all_isField_renameVariables]
    exact ha
  rw [mergeDefsGo, if_pos hc]

theorem mergeDefsGo_two (st0 : MergeDefsState) (d1 d2 : DefInput)
    (ha1 : d1.query.selectionSet.all Selection.isField = true)
    (ha2 : d2.query.selectionSet.all Selection.isField = true) :
    ∃ (m1x m2x : List (String × String)) (st' : MergeDefsState),
      mergeDefsGo st0 [d1, d2] = .ok st' ∧
      st'.selections =
        (mergeFieldsGo
          (mergeFields st0.selections
            (renameVariables d1.query.selectionSet m1x)).1
          (uniqueNameSet ((mergeFields st0.selections
            (renameVariables d1.query.selectionSet m1x)).1.map outKey))
          (renameVariables d2.query.selectionSet m2x)).1 := by
  obtain ⟨m1x, st1, he1, hs1⟩ := mergeDefsGo_cons st0 d1 [d2] ha1
  obtain ⟨m2x, st2, he2, hs2⟩ := mergeDefsGo_cons st1 d2 [] ha2
  refine ⟨m1x, m2x, st2, ?_, ?_⟩
  · rw [he1, he2, mergeDefsGo]
  · rw [hs2, hs1]
    rfl

/-- In a selection list with pairwise distinct output keys, at most one
entry of a given name carries no alias (an unaliased entry's key is its
name). -/
theorem nodup_keys_at_most_one_unaliased (L : List Selection) (n : String)
    (hnod : (L.map outKey).Nodup) :
    ∀ i j : Fin L.length,
      (L.get i).nameOf = n → (L.get i).aliasOf = none →
      (L.get j).nameOf = n → (L.get j).aliasOf = none → i = j := by
  intro i j hni hai hnj haj
  have hki : outKey (L.get i) = n := by
    rw [outKey_eq_accessors, hai, hni]
    rfl
  have hkj : outKey (L.get j) = n := by
    rw [outKey_eq_accessors, haj, hnj]
    rfl
  have hlenm : (L.map outKey).length = L.length := by simp
  have hgi : ∀ k : Fin L.length,
      (L.map outKey).get ⟨k.val, by rw [hlenm]; exact k.isLt⟩ =
        outKey (L.get k) := by
    intro k
    simp [List.get_eq_getElem, List.getElem_map]
  have heqk : (L.map outKey).get ⟨i.val, by rw [hlenm]; exact i.isLt⟩ =
      (L.map outKey).get ⟨j.val, by rw [hlenm]; exact j.isLt⟩ := by
    rw [hgi i, hgi j, hki, hkj]
  have hfin := (List.Nodup.get_inj_iff hnod).mp heqk
  have hv := congrArg Fin.val hfin
  exact Fin.ext hv

/-- The engine behind C7: two rounds of the field fold, one per query.  A
field of the first round and a field of the second round carrying the same
name but incompatible arguments end up in two distinct entries of the
combined list, and the combined list holds at most one unaliased entry per
name. -/
theorem two_folds_props (n : String) (A1 A2 : List Argument)
    (ds1 ds2 : List String) (ssb ssd : Option (List Selection))
    (R1 R2 S1 S2 : List Selection) (AL2 : NameAlloc)
    (hS1 : S1 = (mergeFieldsGo [] (uniqueNameSet []) R1).1)
    (hAL2 : AL2 = uniqueNameSet (S1.map outKey))
    (hS2 : S2 = (mergeFieldsGo S1 AL2 R2).1)
    (hallR1 : R1.all Selection.isField = true)
    (hallR2 : R2.all Selection.isField = true)
    (hfb : Selection.field none n A1 ds1 ssb ∈ R1)
    (hfd : Selection.field none n A2 ds2 ssd ∈ R2)
    (hndR1 : ∀ e ∈ R1, (e.argsOf.map fun a => a.name).Nodup)
    (hndA1 : (A1.map fun a => a.name).Nodup)
    (hneq : argumentsAreEqual A1 A2 = false) :
    (∃ i j : Fin S2.length, i ≠ j ∧
      (S2.get i).isField = true ∧ (S2.get i).nameOf = n ∧
      (S2.get j).isField = true ∧ (S2.get j).nameOf = n) ∧
    (∀ i j : Fin S2.length,
      (S2.get i).nameOf = n → (S2.get i).aliasOf = none →
      (S2.get j).nameOf = n → (S2.get j).aliasOf = none → i = j) := by
  subst hS2
  subst hAL2
  subst hS1
  obtain ⟨j1, hj1, hfld1, hnm1, hrel1⟩ :=
    mergeFieldsGo_fold R1 [] (uniqueNameSet []) none n A1 ds1 ssb hfb
  obtain ⟨hlen12, hpres12⟩ := mergeFieldsGo_preserves R2
    (mergeFieldsGo [] (uniqueNameSet []) R1).1
    (uniqueNameSet ((mergeFieldsGo [] (uniqueNameSet []) R1).1.map outKey))
  obtain ⟨hj1', hacc1⟩ := hpres12 j1 hj1
  obtain ⟨j2, hj2, hfld2, hnm2, hrel2⟩ := mergeFieldsGo_fold R2
    (mergeFieldsGo [] (uniqueNameSet []) R1).1
    (uniqueNameSet ((mergeFieldsGo [] (uniqueNameSet []) R1).1.map outKey))
    none n A2 ds2 ssd hfd
  have hne : j1 ≠ j2 := by
    intro heq
    subst heq
    rcases hrel2 with hae2 | ⟨heqA2, hge⟩
    · have hae2' : argumentsAreEqual
          (((mergeFieldsGo [] (uniqueNameSet []) R1).1.get
            ⟨j1, hj1⟩).argsOf) A2 = true := by
        rw [← hacc1.2.2.1]
        exact hae2
      rcases hrel1 with hae1 | ⟨heqA1, _⟩
      · have hmemB : (mergeFieldsGo [] (uniqueNameSet []) R1).1.get
            ⟨j1, hj1⟩ ∈ (mergeFieldsGo [] (uniqueNameSet []) R1).1 :=
          List.get_mem _ _ _
        rcases mergeFieldsGo_provenance R1 [] (uniqueNameSet []) _ hmemB with
          ⟨e, he, _⟩ | ⟨s, hsR1, hBeq⟩
        · cases he
        · have hndB : ((((mergeFieldsGo [] (uniqueNameSet []) R1).1.get
              ⟨j1, hj1⟩).argsOf.map fun a => a.name)).Nodup := by
            rw [hBeq]
            exact hndR1 s hsR1
          have hsymm := argsEq_symm hndB hndA1 hae1
          have hcontra := argsEq_trans hsymm hae2'
          rw [hneq] at hcontra
          cases hcontra
      · have hcontra : argumentsAreEqual A1 A2 = true := by
          rw [← heqA1]
          exact hae2'
        rw [hneq] at hcontra
        cases hcontra
    · omega
  constructor
  · exact ⟨⟨j1, hj1'⟩, ⟨j2, hj2⟩, Fin.ne_of_val_ne hne,
      hacc1.2.2.2.trans hfld1, hacc1.2.1.trans hnm1, hfld2, hnm2⟩
  · have hnod1 : (((mergeFieldsGo [] (uniqueNameSet []) R1).1.map
        outKey)).Nodup :=
      mergeFieldsGo_keys R1 [] (uniqueNameSet []) hallR1 (by simp) (by simp)
    have hnod2 : (((mergeFieldsGo (mergeFieldsGo [] (uniqueNameSet []) R1).1
        (uniqueNameSet ((mergeFieldsGo [] (uniqueNameSet []) R1).1.map outKey))
        R2).1.map outKey)).Nodup :=
      mergeFieldsGo_keys R2 _ _ hallR2 hnod1 (fun k hk => hk)
    exact nodup_keys_at_most_one_unaliased _ n hnod2

/-- C7 (corrected): for two mergeable queries that each select an unaliased
top-level field named `n` with argument lists that do not compare equal
(the fields are not structurally compatible) — the arguments variable-free
and the first query's top-level argument names duplicate-free — the
operation of the combined document holds two distinct top-level Field
entries named `n`, and at most one top-level entry named `n` carries no
alias.  The original claim's "exactly one of the two carries no alias" is
wrong: both entries may be aliased (see the counterexample). -/
theorem alias_collision (q1 q2 : Query) (n : String)
    (A1 A2 : List Argument) (ds1 ds2 : List String)
    (ss1 ss2 : Option (List Selection))
    (hm1 : mergeable q1.query = true) (hm2 : mergeable q2.query = true)
    (hf1 : Selection.field none n A1 ds1 ss1 ∈ (theOp q1.query).selectionSet)
    (hf2 : Selection.field none n A2 ds2 ss2 ∈ (theOp q2.query).selectionSet)
    (hvf1 : varFreeArgs A1 = true) (hvf2 : varFreeArgs A2 = true)
    (hnd : ∀ s ∈ (theOp q1.query).selectionSet,
      (s.argsOf.map fun a => a.name).Nodup)
    (hneq : argumentsAreEqual A1 A2 = false) :
    ∃ r mq op rest, merge [q1, q2] = .ok r ∧ r.mergedQuery = some mq ∧
      mq.query = .operation op :: rest ∧
      (∃ i j : Fin op.selectionSet.length, i ≠ j ∧
        (op.selectionSet.get i).isField = true ∧
        (op.selectionSet.get i).nameOf = n ∧
        (op.selectionSet.get j).isField = true ∧
        (op.selectionSet.get j).nameOf = n) ∧
      (∀ i j : Fin op.selectionSet.length,
        (op.selectionSet.get i).nameOf = n →
        (op.selectionSet.get i).aliasOf = none →
        (op.selectionSet.get j).nameOf = n →
        (op.selectionSet.get j).aliasOf = none → i = j) := by
  obtain ⟨m1, m2, hdefs⟩ := phase2_two q1 q2 hm1 hm2
  have ha1 : ((⟨{ theOp q1.query with
      selectionSet := renameFragments (theOp q1.query).selectionSet m1 },
      q1.varValues⟩ : DefInput)).query.selectionSet.all Selection.isField =
      true := by
    show (renameFragments (theOp q1.query).selectionSet m1).all
      Selection.isField = true
    rw [all_isField_renameFragments]
    exact mergeable_head_allField q1.query hm1
  have ha2 : ((⟨{ theOp q2.query with
      selectionSet := renameFragments (theOp q2.query).selectionSet m2 },
      q2.varValues⟩ : DefInput)).query.selectionSet.all Selection.isField =
      true := by
    show (renameFragments (theOp q2.query).selectionSet m2).all
      Selection.isField = true
    rw [all_isField_renameFragments]
    exact mergeable_head_allField q2.query hm2
  obtain ⟨m1x, m2x, st', hgo, hsel⟩ := mergeDefsGo_two
    ⟨uniqueNameSet [], [], [], [], []⟩
    ⟨{ theOp q1.query with
      selectionSet := renameFragments (theOp q1.query).selectionSet m1 },
      q1.varValues⟩
    ⟨{ theOp q2.query with
      selectionSet := renameFragments (theOp q2.query).selectionSet m2 },
      q2.varValues⟩ ha1 ha2
  have hsel' : st'.selections =
      (mergeFieldsGo (mergeFieldsGo [] (uniqueNameSet [])
          (renameVariables
            (renameFragments (theOp q1.query).selectionSet m1) m1x)).1
        (uniqueNameSet ((mergeFieldsGo [] (uniqueNameSet [])
          (renameVariables
            (renameFragments (theOp q1.query).selectionSet m1) m1x)).1.map
              outKey))
        (renameVariables
          (renameFragments (theOp q2.query).selectionSet m2) m2x)).1 := hsel
  obtain ⟨ssa, hfa⟩ := mem_renameFragments (theOp q1.query).selectionSet m1
    none n A1 ds1 ss1 hf1
  obtain ⟨ssb, hfb⟩ := mem_renameVariables
    (renameFragments (theOp q1.query).selectionSet m1) m1x
    none n A1 ds1 ssa hvf1 hfa
  obtain ⟨ssc, hfc⟩ := mem_renameFragments (theOp q2.query).selectionSet m2
    none n A2 ds2 ss2 hf2
  obtain ⟨ssd, hfd⟩ := mem_renameVariables
    (renameFragments (theOp q2.query).selectionSet m2) m2x
    none n A2 ds2 ssc hvf2 hfc
  have hallR1 : (renameVariables
      (renameFragments (theOp q1.query).selectionSet m1) m1x).all
      Selection.isField = true := by
    rw [all_isField_renameVariables, all_isField_renameFragments]
    exact mergeable_head_allField q1.query hm1
  have hallR2 : (renameVariables
      (renameFragments (theOp q2.query).selectionSet m2) m2x).all
      Selection.isField = true := by
    rw [all_isField_renameVariables, all_isField_renameFragments]
    exact mergeable_head_allField q2.query hm2
  have hndR1 : ∀ e ∈ renameVariables
      (renameFragments (theOp q1.query).selectionSet m1) m1x,
      (e.argsOf.map fun a => a.name).Nodup := by
    intro e he
    obtain ⟨s0, hs0, hnames⟩ :=
      argNames_renamed (theOp q1.query).selectionSet m1 m1x e he
    rw [hnames]
    exact hnd s0 hs0
  have hndA1 : (A1.map fun a => a.name).Nodup := hnd _ hf1
  obtain ⟨hkey1, hkey2⟩ := two_folds_props n A1 A2 ds1 ds2 ssb ssd
    (renameVariables (renameFragments (theOp q1.query).selectionSet m1) m1x)
    (renameVariables (renameFragments (theOp q2.query).selectionSet m2) m2x)
    _ _ _ rfl rfl rfl hallR1 hallR2 hfb hfd hndR1 hndA1 hneq
  have hne1 : ¬ (([q1, q2].length == 1) = true) := by simp
  have hnemp : ¬ ((phase2 ⟨[], [], [], [], uniqueNameSet [], []⟩
      [q1, q2]).definitions.isEmpty = true) := by
    rw [hdefs]
    simp
  have hms : (phase2 ⟨[], [], [], [], uniqueNameSet [], []⟩
      [q1, q2]).definitions.map (·.2) =
      [⟨{ theOp q1.query with
        selectionSet := renameFragments (theOp q1.query).selectionSet m1 },
        q1.varValues⟩,
       ⟨{ theOp q2.query with
        selectionSet := renameFragments (theOp q2.query).selectionSet m2 },
        q2.varValues⟩] := by
    rw [hdefs]
    rfl
  have hmd : mergeDefinitions
      ((phase2 ⟨[], [], [], [], uniqueNameSet [], []⟩
        [q1, q2]).definitions.map (·.2)) =
      .ok ⟨⟨"query", none, st'.variableDefinitions, [], st'.selections⟩,
        st'.varValues, st'.extractResults⟩ := by
    rw [hms]
    unfold mergeDefinitions
    rw [hgo]
    rfl
  obtain ⟨r, hr⟩ := merge_total [q1, q2]
  have hr0 := hr
  unfold merge at hr
  rw [if_neg hne1, if_neg hnemp, hmd] at hr
  simp only [Except.map] at hr
  have hreq := Except.ok.inj hr
  subst hreq
  refine ⟨_, _, _, _, hr0, rfl, rfl, ?_, ?_⟩
  · rw [hsel']
    exact hkey1
  · rw [hsel']
    exact hkey2

set_option maxHeartbeats 1000000 in
/-- C7 counterexample: `{ f: g  f }` and `{ f(x: 2) }` are both mergeable
and both select an unaliased top-level field `f`, with argument lists that
do not compare equal.  The combined operation does contain two distinct
top-level entries named `f` — but NEITHER is unaliased (they are `b: f` and
`c: f(x: 2)`; the key `f` was already taken by the alias on `f: g`), so
"exactly one of the two carries no alias" is false. -/
theorem alias_collision_counterexample :
    mergeable acq1.query = true ∧ mergeable acq2.query = true ∧
    Selection.field none "f" [] [] none ∈ (theOp acq1.query).selectionSet ∧
    Selection.field none "f" [⟨"x", .intV "2"⟩] [] none ∈
      (theOp acq2.query).selectionSet ∧
    argumentsAreEqual [] [⟨"x", ValueNode.intV "2"⟩] = false ∧
    ∃ r mq op rest, merge [acq1, acq2] = .ok r ∧ r.mergedQuery = some mq ∧
      mq.query = .operation op :: rest ∧
      2 ≤ (op.selectionSet.countP fun s => s.nameOf == "f") ∧
      (op.selectionSet.countP fun s =>
        s.nameOf == "f" && s.aliasOf.isNone) = 0 := by
  refine ⟨by decide, by decide, List.Mem.tail _ (List.Mem.head _),
    List.Mem.head _, by decide, ?_⟩
  have hgo : mergeDefsGo ⟨uniqueNameSet [], [], [], [], []⟩
      ((phase2 ⟨[], [], [], [], uniqueNameSet [], []⟩
        [acq1, acq2]).definitions.map (·.2)) =
      .ok ⟨⟨[], 1⟩, [], [],
        [.field (some "f") "g" [] [] none, .field (some "b") "f" [] [] none,
         .field (some "c") "f" [⟨"x", .intV "2"⟩] [] none],
        [[⟨"f", "f", .bySet none⟩, ⟨"b", "f", .bySet none⟩],
         [⟨"c", "f", .bySet none⟩]]⟩ := by
    simp +decide [jvalue_beq_def, phase2, phase2Step, addFragments,
      addFragment, mergeable, eligibleDef, queryOps, fragmentDefs,
      mergeDefsGo, processVariables, processVariable, findExistingVariable,
      valueNodesAreEqual, lookupVar, renameVariables, renameVarsSels,
      renameVarsSel, renameArg, renameFragments, renameFragsSels,
      renameFragsSel, mergeFields, mergeFieldsGo, mergeFieldStep,
      fieldsCanBeMerged, argumentsAreEqual, argumentEqual, hasNonField,
      Selection.isField, outKey, selectionSetOf, withSelectionSet,
      uniqueNameSet, NameAlloc.next, allocLoop,
      generateAlphabeticNameFromNumber, toAlpha, fragBeq, selsBeq, selBeq,
      argsBeq, argBeq, valBeq, acq1, acq2, fld, fldA, qdoc, List.find?,
      List.findIdx?, Option.getD, Option.map, List.headD, List.head?,
      List.all, List.any]
  have hmd : mergeDefinitions
      ((phase2 ⟨[], [], [], [], uniqueNameSet [], []⟩
        [acq1, acq2]).definitions.map (·.2)) =
      .ok ⟨⟨"query", none, [], [],
        [.field (some "f") "g" [] [] none, .field (some "b") "f" [] [] none,
         .field (some "c") "f" [⟨"x", .intV "2"⟩] [] none]⟩, [],
        [[⟨"f", "f", .bySet none⟩, ⟨"b", "f", .bySet none⟩],
         [⟨"c", "f", .bySet none⟩]]⟩ := by
    unfold mergeDefinitions
    rw [hgo]
    rfl
  obtain ⟨r, hr⟩ := merge_total [acq1, acq2]
  have hr0 := hr
  unfold merge at hr
  rw [if_neg (by decide), if_neg (by decide), hmd] at hr
  simp only [Except.map] at hr
  have hreq := Except.ok.inj hr
  subst hreq
  exact ⟨_, _, _, _, hr0, rfl, rfl, by decide, by decide⟩

/-- C7 witness: the amended theorem applied to the concrete queries
`{ f(x: 1) }` and `{ f(x: 2) }`. -/
theorem alias_collision_witness :
    mergeable wq1.query = true ∧ mergeable wq2.query = true ∧
    Selection.field none "f" [⟨"x", .intV "1"⟩] [] none ∈
      (theOp wq1.query).selectionSet ∧
    Selection.field none "f" [⟨"x", .intV "2"⟩] [] none ∈
      (theOp wq2.query).selectionSet ∧
    varFreeArgs [⟨"x", ValueNode.intV "1"⟩] = true ∧
    varFreeArgs [⟨"x", ValueNode.intV "2"⟩] = true ∧
    (∀ s ∈ (theOp wq1.query).selectionSet,
      (s.argsOf.map fun a => a.name).Nodup) ∧
    argumentsAreEqual [⟨"x", ValueNode.intV "1"⟩]
      [⟨"x", ValueNode.intV "2"⟩] = false ∧
    (∃ r mq op rest, merge [wq1, wq2] = .ok r ∧ r.mergedQuery = some mq ∧
      mq.query = .operation op :: rest ∧
      (∃ i j : Fin op.selectionSet.length, i ≠ j ∧
        (op.selectionSet.get i).isField = true ∧
        (op.selectionSet.get i).nameOf = "f" ∧
        (op.selectionSet.get j).isField = true ∧
        (op.selectionSet.get j).nameOf = "f") ∧
      (∀ i j : Fin op.selectionSet.length,
        (op.selectionSet.get i).nameOf = "f" →
        (op.selectionSet.get i).aliasOf = none →
        (op.selectionSet.get j).nameOf = "f" →
        (op.selectionSet.get j).aliasOf = none → i = j)) :=
  ⟨by decide, by decide, List.Mem.head _, List.Mem.head _, by decide,
    by decide, by decide, by decide,
    alias_collision wq1 wq2 "f" [⟨"x", .intV "1"⟩] [⟨"x", .intV "2"⟩]
      [] [] none none (by decide) (by decide) (List.Mem.head _)
      (List.Mem.head _) (by decide) (by decide) (by decide) (by decide)⟩

end GMU
